import Mathlib

/-!
Verification development for the enveil/enject secret store and its
`.env` template engine.  The Rust sources are shallowly embedded: strings
are lists of characters, byte buffers are lists of naturals, the file
system cell holding the store file is an `Option` of its contents, and the
external cryptographic collaborators (Argon2 key derivation, AES-GCM AEAD,
JSON serialization of the secret map) are bundled in a `CryptoModel`
structure whose function fields the store logic calls exactly where the
Rust code calls the corresponding crates.
-/

namespace Enveil

/-- Strings from the Rust sources are modelled as lists of characters. -/
abbrev Str := List Char

/-- Whitespace test used by trimming, modelling char::is_whitespace on the
ASCII range that the embedded inputs use. -/
def isWs (c : Char) : Bool := c.isWhitespace

/-- Model of str::trim_end: drop trailing whitespace. -/
def trimEnd (s : Str) : Str := (s.reverse.dropWhile isWs).reverse

/-- Model of str::trim_start: drop leading whitespace. -/
def trimStart (s : Str) : Str := s.dropWhile isWs

/-- Model of str::trim: drop whitespace at both ends. -/
def trim (s : Str) : Str := trimEnd (trimStart s)

/-- Model of str::strip_prefix p: when s begins with p, return the rest.
Stated for any list of elements with decidable equality so the same
function also strips a known key from a ciphertext in the concrete crypto
instance. -/
def stripPre {α : Type} [DecidableEq α] : List α → List α → Option (List α)
  | [], s => some s
  | _ :: _, [] => none
  | c :: p, d :: s => if d = c then stripPre p s else none

/-- Model of str::find for a single character: index of its first
occurrence. -/
def findChar (c : Char) : Str → Option Nat
  | [] => none
  | d :: s => if d = c then some 0 else (findChar c s).map (· + 1)

/-- The current local-reference token (source constant for the en scheme,
env_template.rs line 7). -/
def enToken : Str := "en://".toList

/-- The current global-reference token (env_template.rs line 8). -/
def enGlobalToken : Str := "en://global/".toList

/-- The legacy local-reference token (env_template.rs line 9). -/
def evToken : Str := "ev://".toList

/-- The legacy global-reference token (env_template.rs line 10). -/
def evGlobalToken : Str := "ev://global/".toList

/-- A single parsed line from a .env file (env_template.rs lines 13-23). -/
inductive EnvLine where
  | Passthrough (raw : Str)
  | Plain (key : Str) (value : Str)
  | LocalRef (key : Str) (secret_name : Str)
  | GlobalRef (key : Str) (secret_name : Str)
deriving DecidableEq, Repr

/-- The error enumeration of error.rs.  Detail strings that the Rust code
builds with format are carried as fixed tags here; the structured payload
of SecretNotFound (the missing name) is kept in full. -/
inductive EnjectError where
  | StoreNotInitialized
  | DecryptionFailed
  | CorruptStore (detail : String)
  | SecretNotFound (name : Str)
  | Config (detail : String)
  | Io
  | Serialization (detail : String)
deriving DecidableEq, Repr

deriving instance DecidableEq for Except

/-- Value classification, the tail of parse_line (env_template.rs lines
133-185): the current en global form, then the current en local form, then
the two legacy ev forms, else a plain value.  The Bool is the is_legacy
flag returned by parse_line. -/
def classifyValue (key value : Str) : Except EnjectError (EnvLine × Bool) :=
  match stripPre enGlobalToken value with
  | some secret_name =>
    if secret_name = [] then .error (.Config "Malformed en reference: empty secret name")
    else .ok (.GlobalRef key secret_name, false)
  | none =>
    match stripPre enToken value with
    | some secret_name =>
      if secret_name = [] then .error (.Config "Malformed en reference: empty secret name")
      else .ok (.LocalRef key secret_name, false)
    | none =>
      match stripPre evGlobalToken value with
      | some secret_name =>
        if secret_name = [] then .error (.Config "Malformed ev reference: empty secret name")
        else .ok (.GlobalRef key secret_name, true)
      | none =>
        match stripPre evToken value with
        | some secret_name =>
          if secret_name = [] then .error (.Config "Malformed ev reference: empty secret name")
          else .ok (.LocalRef key secret_name, true)
        | none => .ok (.Plain key value, false)

/-- Model of parse_line (env_template.rs lines 110-186): trim trailing
whitespace, pass through blanks and comments, split at the first equals
sign, trim the key, then classify the value. -/
def parse_line (line : Str) : Except EnjectError (EnvLine × Bool) :=
  if trimEnd line = [] ∨ (trimEnd line).head? = some '#' then
    .ok (.Passthrough line, false)
  else
    match findChar '=' (trimEnd line) with
    | none => .error (.Config "Malformed .env line: no equals sign found")
    | some eq_pos =>
      if trim ((trimEnd line).take eq_pos) = [] then
        .error (.Config "Malformed .env line: empty key")
      else classifyValue (trim ((trimEnd line).take eq_pos)) ((trimEnd line).drop (eq_pos + 1))

/-- Plain split at newline characters, producing one piece more than the
number of newlines. -/
def splitNl : Str → List Str
  | [] => [[]]
  | c :: rest =>
    if c = '\n' then [] :: splitNl rest
    else
      match splitNl rest with
      | [] => [[c]]
      | l :: ls => (c :: l) :: ls

/-- Drop one trailing carriage return, as Rust str::lines does per line. -/
def stripCr (l : Str) : Str := if l.getLast? = some '\r' then l.dropLast else l

/-- Model of str::lines: split at newline characters, strip one trailing
carriage return from every piece that was terminated by a newline (a CRLF
line ending), drop a final empty piece (the final line ending is
optional), and keep a final unterminated piece verbatim — in particular
the trailing carriage return of a final line not ended by a newline is
kept, as the Rust standard library documents. -/
def rustLines (s : Str) : List Str :=
  (splitNl s).dropLast.map stripCr ++
    (match (splitNl s).getLast? with
     | some [] => []
     | some l => [l]
     | none => [])

/-- Parse a list of raw lines, failing on the first malformed one; this is
the collect step of parse (env_template.rs lines 27-32). -/
def parseLines : List Str → Except EnjectError (List EnvLine)
  | [] => .ok []
  | l :: rest =>
    match parse_line l with
    | .error e => .error e
    | .ok (env_line, _) =>
      match parseLines rest with
      | .error e => .error e
      | .ok others => .ok (env_line :: others)

/-- Model of parse (env_template.rs lines 27-32). -/
def parse (content : Str) : Except EnjectError (List EnvLine) :=
  parseLines (rustLines content)

/-- Association-list model of HashMap lookup. -/
def lookupA {α β : Type} [DecidableEq α] (k : α) : List (α × β) → Option β
  | [] => none
  | (k', v) :: rest => if k' = k then some v else lookupA k rest

/-- Association-list model of HashMap insert: replace the binding of k if
present, else append it. -/
def insertA {α β : Type} [DecidableEq α] (k : α) (v : β) : List (α × β) → List (α × β)
  | [] => [(k, v)]
  | (k', v') :: rest => if k' = k then (k, v) :: rest else (k', v') :: insertA k v rest

/-- A secret map: the in-memory model of HashMap from names to values. -/
abbrev SecretMap := List (Str × Str)

/-- Model of resolve with its accumulating environment (the for loop of
env_template.rs lines 196-217). -/
def resolveAux (local_secrets global_secrets : SecretMap) :
    SecretMap → List EnvLine → Except EnjectError SecretMap
  | env, [] => .ok env
  | env, line :: rest =>
    match line with
    | .Passthrough _ => resolveAux local_secrets global_secrets env rest
    | .Plain key value =>
      resolveAux local_secrets global_secrets (insertA key value env) rest
    | .LocalRef key secret_name =>
      match lookupA secret_name local_secrets with
      | none => .error (.SecretNotFound secret_name)
      | some v => resolveAux local_secrets global_secrets (insertA key v env) rest
    | .GlobalRef key secret_name =>
      match lookupA secret_name global_secrets with
      | none => .error (.SecretNotFound ("global/".toList ++ secret_name))
      | some v => resolveAux local_secrets global_secrets (insertA key v env) rest

/-- Model of resolve (env_template.rs lines 191-220). -/
def resolve (lines : List EnvLine) (local_secrets global_secrets : SecretMap) :
    Except EnjectError SecretMap :=
  resolveAux local_secrets global_secrets [] lines

/-- One line of templatize output (env_template.rs lines 227-234). -/
def templatizeLine : EnvLine → Str
  | .Passthrough s => s
  | .Plain key _ => key ++ '=' :: (enToken ++ key)
  | .LocalRef key secret_name => key ++ '=' :: (enToken ++ secret_name)
  | .GlobalRef key secret_name => key ++ '=' :: (enGlobalToken ++ secret_name)

/-- Model of templatize (env_template.rs lines 224-236). -/
def templatize (lines : List EnvLine) : List Str := lines.map templatizeLine

/-- Model of Vec join with a newline separator. -/
def joinNl : List Str → Str
  | [] => []
  | [l] => l
  | l :: ls => l ++ '\n' :: joinNl ls

/-- ASCII model of str::to_lowercase, as used at import.rs line 86. -/
def lowerAscii (s : Str) : Str := s.map Char.toLower

/-- The import loop of import.rs lines 84-90: every Plain line has its
value stored under the lowercased key; other lines are skipped.  Each set
call inserts into the unlocked in-memory map (password.rs lines 181-185). -/
def importSets (lines : List EnvLine) (store : SecretMap) : SecretMap :=
  lines.foldl
    (fun acc l =>
      match l with
      | .Plain key value => insertA (lowerAscii key) value acc
      | _ => acc)
    store

/-- Nonce length in bytes (password.rs line 17). -/
def NONCE_LEN : Nat := 12

/-- Byte buffers are modelled as lists of naturals. -/
abbrev Bytes := List Nat

/-- KDF cost parameters (password.rs lines 30-35). -/
structure KdfParams where
  m_cost : Nat
  t_cost : Nat
  p_cost : Nat
deriving DecidableEq, Repr

/-- The external cryptographic collaborators of the store: Argon2id key
derivation (derive_key, password.rs lines 202-214, deterministic in
password, salt and parameters), AES-256-GCM authenticated encryption, and
JSON serialization of the secret map.  These are external crates for the
Rust code, so they enter the embedding as an abstract bundle of functions;
the store logic below calls them exactly where password.rs calls the
corresponding crate functions. -/
structure CryptoModel where
  derive_key : Str → Bytes → KdfParams → Bytes
  aeadEncrypt : Bytes → Bytes → Bytes → Bytes
  aeadDecrypt : Bytes → Bytes → Bytes → Option Bytes
  serialize : SecretMap → Bytes
  deserialize : Bytes → Option SecretMap

/-- The PasswordStore state (password.rs lines 21-28): path, KDF
parameters, salt, and the optional in-memory decrypted map. -/
structure PasswordStore where
  store_path : Str
  kdf_params : KdfParams
  salt : Bytes
  secrets : Option SecretMap
deriving DecidableEq, Repr

/-- Model of PasswordStore::new (password.rs lines 48-55). -/
def PasswordStore.new (store_path : Str) (kdf_params : KdfParams) (salt : Bytes) :
    PasswordStore :=
  { store_path := store_path, kdf_params := kdf_params, salt := salt, secrets := none }

/-- Model of PasswordStore::unlock (password.rs lines 59-98).  The single
file-system cell at the store path is passed as fs: none when no store
file exists, some contents otherwise. -/
def PasswordStore.unlock (M : CryptoModel) (st : PasswordStore) (fs : Option Bytes)
    (password : Str) : Except EnjectError PasswordStore :=
  match fs with
  | none => .ok { st with secrets := some [] }
  | some ciphertext_with_nonce =>
    if ciphertext_with_nonce.length < NONCE_LEN then
      .error (.CorruptStore "Store file too short to contain a nonce.")
    else
      let nonce_bytes := ciphertext_with_nonce.take NONCE_LEN
      let ciphertext := ciphertext_with_nonce.drop NONCE_LEN
      let key := M.derive_key password st.salt st.kdf_params
      match M.aeadDecrypt key nonce_bytes ciphertext with
      | none => .error .DecryptionFailed
      | some plaintext =>
        match M.deserialize plaintext with
        | none => .error (.CorruptStore "Failed to deserialize the decrypted store.")
        | some secrets => .ok { st with secrets := some secrets }

/-- Model of PasswordStore::save (password.rs lines 101-147).  The fresh
random nonce is passed in by the caller; the result is the new contents of
the file-system cell after the atomic rename, which replaces whatever fs
held before without reading it. -/
def PasswordStore.save (M : CryptoModel) (st : PasswordStore) (nonce : Bytes)
    (password : Str) (fs : Option Bytes) : Except EnjectError (Option Bytes) :=
  match st.secrets with
  | none => .error (.CorruptStore "Store not unlocked.")
  | some secrets =>
    let json_bytes := M.serialize secrets
    let key := M.derive_key password st.salt st.kdf_params
    let ciphertext := M.aeadEncrypt key nonce json_bytes
    let _ := fs
    .ok (some (nonce ++ ciphertext))

/-- Model of Store::set for PasswordStore (password.rs lines 181-185). -/
def PasswordStore.set (st : PasswordStore) (key value : Str) :
    Except EnjectError PasswordStore :=
  match st.secrets with
  | none => .error (.CorruptStore "Store not unlocked.")
  | some m => .ok { st with secrets := some (insertA key value m) }

/-- Model of PasswordStore::create_empty (password.rs lines 150-160): build
the store, put the empty map in memory, and save it. -/
def PasswordStore.create_empty (M : CryptoModel) (store_path : Str)
    (kdf_params : KdfParams) (salt : Bytes) (password : Str) (nonce : Bytes)
    (fs : Option Bytes) : Except EnjectError (PasswordStore × Option Bytes) :=
  let store : PasswordStore :=
    { PasswordStore.new store_path kdf_params salt with secrets := some [] }
  match store.save M nonce password fs with
  | .error e => .error e
  | .ok fs' => .ok (store, fs')

/-- Apply a sequence of set calls in order. -/
def applySets (st : PasswordStore) : List (Str × Str) → Except EnjectError PasswordStore
  | [] => .ok st
  | (k, v) :: rest =>
    match st.set k v with
    | .error e => .error e
    | .ok st' => applySets st' rest

/-- Insert a list of entries into the empty map in order: the map whose
entries were set. -/
def insertAll (sets : List (Str × Str)) : SecretMap :=
  sets.foldl (fun m kv => insertA kv.1 kv.2 m) []

/-- The round-trip scenario of claim C1: unlock a fresh store on a missing
file with the first password, set a list of entries, save under the second
password, then unlock the written file from a fresh store instance built
with the same path, parameters and salt, using the second password. -/
def roundtripRotate (M : CryptoModel) (path : Str) (params : KdfParams) (salt : Bytes)
    (p1 p2 : Str) (sets : List (Str × Str)) (nonce : Bytes) :
    Except EnjectError PasswordStore :=
  match PasswordStore.unlock M (PasswordStore.new path params salt) none p1 with
  | .error e => .error e
  | .ok st1 =>
    match applySets st1 sets with
    | .error e => .error e
    | .ok st2 =>
      match st2.save M nonce p2 none with
      | .error e => .error e
      | .ok file => PasswordStore.unlock M (PasswordStore.new path params salt) file p2

/-- The round-trip scenario of claim C1 started from create_empty instead
of unlock-on-missing-file: the file written by create_empty under the
first password is the one replaced by the later save under the second. -/
def roundtripRotateCreate (M : CryptoModel) (path : Str) (params : KdfParams)
    (salt : Bytes) (p1 p2 : Str) (sets : List (Str × Str)) (nonce0 nonce : Bytes) :
    Except EnjectError PasswordStore :=
  match PasswordStore.create_empty M path params salt p1 nonce0 none with
  | .error e => .error e
  | .ok (st1, file0) =>
    match applySets st1 sets with
    | .error e => .error e
    | .ok st2 =>
      match st2.save M nonce p2 file0 with
      | .error e => .error e
      | .ok file => PasswordStore.unlock M (PasswordStore.new path params salt) file p2

/-- Length-prefixed encoding of one string, for the concrete serializer. -/
def encStr (s : Str) : Bytes := s.length :: s.map Char.toNat

/-- Decoder matching encStr; returns the string and the remaining bytes. -/
def decStr (b : Bytes) : Option (Str × Bytes) :=
  match b with
  | [] => none
  | n :: rest =>
    let cs := rest.take n
    if cs.length = n then some (cs.map Char.ofNat, rest.drop n) else none

/-- Record encoding of the entries of a secret map. -/
def encEntries (m : SecretMap) : Bytes :=
  m.foldr (fun e acc => encStr e.1 ++ encStr e.2 ++ acc) []

/-- Length-prefixed encoding of a whole secret map. -/
def encMap (m : SecretMap) : Bytes := m.length :: encEntries m

/-- Decoder for a known number of entries, consuming all bytes. -/
def decEntries : Nat → Bytes → Option SecretMap
  | 0, b => if b = [] then some [] else none
  | n + 1, b =>
    match decStr b with
    | none => none
    | some (k, b1) =>
      match decStr b1 with
      | none => none
      | some (v, b2) =>
        match decEntries n b2 with
        | none => none
        | some m => some ((k, v) :: m)

/-- Decoder matching encMap. -/
def decMap (b : Bytes) : Option SecretMap :=
  match b with
  | [] => none
  | n :: rest => decEntries n rest

/-- A concrete executable instance of the crypto bundle, used to evaluate
the store theorems at explicit inputs: the derived key lists the password
bytes, the salt and the cost parameters; encryption prepends the key to
the message and decryption strips and checks it; the secret map is
serialized with length-prefixed records. -/
def concreteModel : CryptoModel where
  derive_key := fun pw salt params =>
    pw.map Char.toNat ++ salt ++ [params.m_cost, params.t_cost, params.p_cost]
  aeadEncrypt := fun key _ msg => key ++ msg
  aeadDecrypt := fun key _ ct => stripPre key ct
  serialize := encMap
  deserialize := decMap

/-- Whether one line can be resolved against the two secret maps. -/
def lineResolvable (local_secrets global_secrets : SecretMap) : EnvLine → Bool
  | .Passthrough _ => true
  | .Plain _ _ => true
  | .LocalRef _ secret_name => (lookupA secret_name local_secrets).isSome
  | .GlobalRef _ secret_name => (lookupA secret_name global_secrets).isSome

/-- Whether every reference of a parsed file is present in its map. -/
def allResolvable (lines : List EnvLine) (local_secrets global_secrets : SecretMap) : Bool :=
  lines.all (lineResolvable local_secrets global_secrets)

/-- The key-value pair one line contributes to the environment, if any:
Passthrough contributes nothing, Plain its literal value, references the
looked-up secret. -/
def contribution (local_secrets global_secrets : SecretMap) : EnvLine → Option (Str × Str)
  | .Passthrough _ => none
  | .Plain key value => some (key, value)
  | .LocalRef key secret_name =>
    (lookupA secret_name local_secrets).map (fun v => (key, v))
  | .GlobalRef key secret_name =>
    (lookupA secret_name global_secrets).map (fun v => (key, v))

/-- Fold step inserting the contribution of one line into the accumulated
environment. -/
def applyContribution (local_secrets global_secrets : SecretMap)
    (env : SecretMap) (l : EnvLine) : SecretMap :=
  match contribution local_secrets global_secrets l with
  | none => env
  | some (k, v) => insertA k v env

/-- The name carried by a SecretNotFound failure belongs to an absent
reference of the file: a LocalRef name missing from the local map, or a
GlobalRef name missing from the global map reported with the global
marker. -/
def badName (lines : List EnvLine) (local_secrets global_secrets : SecretMap)
    (nm : Str) : Prop :=
  (∃ key secret_name, EnvLine.LocalRef key secret_name ∈ lines ∧
    lookupA secret_name local_secrets = none ∧ nm = secret_name) ∨
  (∃ key secret_name, EnvLine.GlobalRef key secret_name ∈ lines ∧
    lookupA secret_name global_secrets = none ∧ nm = "global/".toList ++ secret_name)

/-- A string whose last character, when present, is not whitespace; the
strings fixed by trimEnd. -/
def lastNotWs (s : Str) : Prop := ∀ c, s.getLast? = some c → isWs c = false

/-- Whether a parsed line is a Plain literal assignment. -/
def isPlain : EnvLine → Bool
  | .Plain _ _ => true
  | _ => false

/-- The key of a reference line, if the line is one. -/
def refKey : EnvLine → Option Str
  | .LocalRef key _ => some key
  | .GlobalRef key _ => some key
  | _ => none

/-- The preserved text of a Passthrough line, if the line is one. -/
def rawText : EnvLine → Option Str
  | .Passthrough raw => some raw
  | _ => none

/-- The key of a KEY=VALUE line as the spec words it: the text before the
first equals sign of the end-trimmed line, trimmed.  Stated with takeWhile,
independently of the find-then-slice implementation of parse_line. -/
def lineKeyOf (line : Str) : Str := trim ((trimEnd line).takeWhile (fun c => c ≠ '='))

/-- The value of a KEY=VALUE line as the spec words it: the text after the
first equals sign of the end-trimmed line, verbatim. -/
def lineValueOf (line : Str) : Str := ((trimEnd line).dropWhile (fun c => c ≠ '=')).tail

example : parse "PORT=3000".toList = .ok [.Plain "PORT".toList "3000".toList] := by decide

example : parse "DATABASE_URL=en://database_url".toList
    = .ok [.LocalRef "DATABASE_URL".toList "database_url".toList] := by decide

example : parse "API_KEY=en://global/shared_key".toList
    = .ok [.GlobalRef "API_KEY".toList "shared_key".toList] := by decide

example : parse "# this is a comment".toList
    = .ok [.Passthrough "# this is a comment".toList] := by decide

example : parse "\n".toList = .ok [.Passthrough []] := by decide

example : parse "".toList = .ok [] := by decide

example : (parse "MISSING_EQUALS".toList).isOk = false := by decide

example : (parse "=value".toList).isOk = false := by decide

example : (parse "KEY=en://".toList).isOk = false := by decide

example : (parse "KEY=ev://".toList).isOk = false := by decide

example : parse "DATABASE_URL=ev://database_url".toList
    = .ok [.LocalRef "DATABASE_URL".toList "database_url".toList] := by decide

example : parse "API_KEY=ev://global/shared_key".toList
    = .ok [.GlobalRef "API_KEY".toList "shared_key".toList] := by decide

example : parse "URL=http://host?foo=bar".toList
    = .ok [.Plain "URL".toList "http://host?foo=bar".toList] := by decide

example : resolve [.LocalRef "DB".toList "database_url".toList]
    [("database_url".toList, "postgres".toList)] []
    = .ok [("DB".toList, "postgres".toList)] := by decide

example : resolve [.LocalRef "DB".toList "missing".toList] [] []
    = .error (.SecretNotFound "missing".toList) := by decide

theorem stripPre_append {α : Type} [DecidableEq α] (p r : List α) :
    stripPre p (p ++ r) = some r := by
  induction p with
  | nil => rfl
  | cons c p ih => simpa [stripPre] using ih

theorem stripPre_eq_some {α : Type} [DecidableEq α] {p s r : List α} :
    stripPre p s = some r ↔ s = p ++ r := by
  induction p generalizing s with
  | nil => cases s <;> simp [stripPre]
  | cons c p ih =>
    cases s with
    | nil => simp [stripPre]
    | cons d s' =>
      by_cases h : d = c
      · subst h
        simp [stripPre, ih]
      · constructor
        · intro hx
          simp [stripPre, h] at hx
        · intro hx
          rw [List.cons_append] at hx
          injection hx with h1 h2
          exact absurd h1 h

theorem map_ofNat_comp_toNat (l : Str) : l.map (Char.ofNat ∘ Char.toNat) = l := by
  induction l with
  | nil => rfl
  | cons c l ih => simp [ih]

theorem decStr_encStr (s : Str) (r : Bytes) : decStr (encStr s ++ r) = some (s, r) := by
  have hlen : (s.map Char.toNat).length = s.length := by simp
  simp [encStr, decStr, List.take_left' hlen, List.drop_left' hlen, hlen,
    map_ofNat_comp_toNat]

theorem decEntries_encEntries (m : SecretMap) (r : Bytes) :
    decEntries m.length (encEntries m ++ r) = if r = [] then some m else none := by
  induction m generalizing r with
  | nil =>
    show decEntries 0 ([] ++ r) = _
    rw [List.nil_append]
    rfl
  | cons e m ih =>
    obtain ⟨k, v⟩ := e
    show decEntries (m.length + 1) (((encStr k ++ encStr v) ++ encEntries m) ++ r) = _
    rw [List.append_assoc, List.append_assoc]
    simp only [decEntries, decStr_encStr, ih]
    by_cases h : r = [] <;> simp [h]

theorem decMap_encMap (m : SecretMap) : decMap (encMap m) = some m := by
  have := decEntries_encEntries m []
  simp only [List.append_nil, if_pos rfl] at this
  simp [encMap, decMap, this]

theorem concreteModel_decrypt_encrypt (key nonce msg : Bytes) :
    concreteModel.aeadDecrypt key nonce (concreteModel.aeadEncrypt key nonce msg)
      = some msg :=
  stripPre_append key msg

theorem concreteModel_deserialize_serialize (m : SecretMap) :
    concreteModel.deserialize (concreteModel.serialize m) = some m :=
  decMap_encMap m

theorem applySets_unlocked (path : Str) (params : KdfParams) (salt : Bytes)
    (m : SecretMap) (sets : List (Str × Str)) :
    applySets ⟨path, params, salt, some m⟩ sets
      = .ok ⟨path, params, salt, some (sets.foldl (fun acc kv => insertA kv.1 kv.2 acc) m)⟩ := by
  induction sets generalizing m with
  | nil => rfl
  | cons kv rest ih =>
    obtain ⟨k, v⟩ := kv
    simp [applySets, PasswordStore.set, ih]

/-- Claim C2: the outcome of unlock is exactly this case analysis.  With no
file the result is Ok and the in-memory map is empty; a file shorter than
the 12-byte nonce is a CorruptStore error; a failed authenticated decrypt
(wrong password or tampered nonce or ciphertext, indistinguishable) is
DecryptionFailed; a successful decrypt whose plaintext does not
deserialize is CorruptStore; otherwise unlock succeeds with the
deserialized map. -/
theorem unlock_case_analysis_C2 (M : CryptoModel) (st : PasswordStore) (password : Str) :
    (PasswordStore.unlock M st none password = .ok { st with secrets := some [] }) ∧
    (∀ data : Bytes, data.length < NONCE_LEN →
      PasswordStore.unlock M st (some data) password
        = .error (.CorruptStore "Store file too short to contain a nonce.")) ∧
    (∀ data : Bytes, ¬ data.length < NONCE_LEN →
      (M.aeadDecrypt (M.derive_key password st.salt st.kdf_params)
          (data.take NONCE_LEN) (data.drop NONCE_LEN) = none →
        PasswordStore.unlock M st (some data) password = .error .DecryptionFailed) ∧
      (∀ plaintext,
        M.aeadDecrypt (M.derive_key password st.salt st.kdf_params)
            (data.take NONCE_LEN) (data.drop NONCE_LEN) = some plaintext →
        (M.deserialize plaintext = none →
          PasswordStore.unlock M st (some data) password
            = .error (.CorruptStore "Failed to deserialize the decrypted store.")) ∧
        (∀ m, M.deserialize plaintext = some m →
          PasswordStore.unlock M st (some data) password
            = .ok { st with secrets := some m }))) := by
  refine ⟨rfl, ?_, ?_⟩
  · intro data h
    simp [PasswordStore.unlock, h]
  · intro data h
    refine ⟨?_, ?_⟩
    · intro hdec
      simp [PasswordStore.unlock, h, hdec]
    · intro plaintext hdec
      refine ⟨?_, ?_⟩
      · intro hser
        simp [PasswordStore.unlock, h, hdec, hser]
      · intro m hser
        simp [PasswordStore.unlock, h, hdec, hser]

theorem unlock_case_analysis_C2_witness :
    (PasswordStore.unlock concreteModel (PasswordStore.new [] ⟨1, 1, 1⟩ []) (some [0, 1, 2]) []
      = .error (.CorruptStore "Store file too short to contain a nonce.")) ∧
    (PasswordStore.unlock concreteModel (PasswordStore.new [] ⟨1, 1, 1⟩ [])
        (some (List.replicate 12 0 ++ [9])) []
      = .error .DecryptionFailed) ∧
    (PasswordStore.unlock concreteModel (PasswordStore.new [] ⟨1, 1, 1⟩ [])
        (some (List.replicate 12 0 ++ ([1, 1, 1] ++ [0]))) []
      = .ok { PasswordStore.new [] ⟨1, 1, 1⟩ [] with secrets := some [] }) :=
  ⟨(unlock_case_analysis_C2 concreteModel (PasswordStore.new [] ⟨1, 1, 1⟩ []) []).2.1
      [0, 1, 2] (by decide),
   ((unlock_case_analysis_C2 concreteModel (PasswordStore.new [] ⟨1, 1, 1⟩ []) []).2.2
      (List.replicate 12 0 ++ [9]) (by decide)).1 (by decide),
   (((unlock_case_analysis_C2 concreteModel (PasswordStore.new [] ⟨1, 1, 1⟩ []) []).2.2
      (List.replicate 12 0 ++ ([1, 1, 1] ++ [0])) (by decide)).2 [0] (by decide)).2
      [] (by decide)⟩

/-- Claim C10: create_empty succeeds whatever the store file held before,
never reads it, and unconditionally replaces it with the encryption of the
empty map; in particular its result does not depend on the previous file
contents, and unlocking the written file yields the empty map. -/
theorem create_empty_clobbers_C10 (M : CryptoModel) (path : Str) (params : KdfParams)
    (salt : Bytes) (password : Str) (nonce : Bytes) (fs fs' : Option Bytes)
    (hdec : ∀ key nonce msg,
      M.aeadDecrypt key nonce (M.aeadEncrypt key nonce msg) = some msg)
    (hser : ∀ m, M.deserialize (M.serialize m) = some m)
    (hn : nonce.length = NONCE_LEN) :
    (PasswordStore.create_empty M path params salt password nonce fs
      = .ok (⟨path, params, salt, some []⟩,
          some (nonce ++ M.aeadEncrypt (M.derive_key password salt params) nonce
            (M.serialize [])))) ∧
    (PasswordStore.create_empty M path params salt password nonce fs
      = PasswordStore.create_empty M path params salt password nonce fs') ∧
    (PasswordStore.unlock M (PasswordStore.new path params salt)
        (some (nonce ++ M.aeadEncrypt (M.derive_key password salt params) nonce
          (M.serialize []))) password
      = .ok ⟨path, params, salt, some []⟩) := by
  refine ⟨rfl, rfl, ?_⟩
  have hlen : ¬ (nonce ++ M.aeadEncrypt (M.derive_key password salt params) nonce
      (M.serialize [])).length < NONCE_LEN := by
    simp only [List.length_append, hn, NONCE_LEN]
    omega
  simp [PasswordStore.unlock, PasswordStore.new, hlen, List.take_left' hn,
    List.drop_left' hn, hdec, hser] <;> omega

theorem create_empty_clobbers_C10_witness :
    PasswordStore.create_empty concreteModel [] ⟨1, 1, 1⟩ [] [] (List.replicate 12 0)
        (some [7, 7, 7])
      = .ok (⟨[], ⟨1, 1, 1⟩, [], some []⟩,
          some (List.replicate 12 0
            ++ concreteModel.aeadEncrypt (concreteModel.derive_key [] [] ⟨1, 1, 1⟩)
              (List.replicate 12 0) (concreteModel.serialize []))) :=
  (create_empty_clobbers_C10 concreteModel [] ⟨1, 1, 1⟩ [] [] (List.replicate 12 0)
    (some [7, 7, 7]) none concreteModel_decrypt_encrypt
    concreteModel_deserialize_serialize (by decide)).1

/-- Claim C1: round-trip persistence with password rotation.  Starting
from unlock on a missing file (or from create_empty) with the first
password, setting a list of entries and saving under the second password,
a fresh store instance on the same path with the same salt and parameters
unlocks with the second password and holds exactly the map of the entries
that were set: save derives its key from the password given to save, with
salt and KDF parameters unchanged. -/
theorem roundtrip_rotation_C1 (M : CryptoModel) (path : Str) (params : KdfParams)
    (salt : Bytes) (p1 p2 : Str) (sets : List (Str × Str)) (nonce0 nonce : Bytes)
    (hdec : ∀ key nonce msg,
      M.aeadDecrypt key nonce (M.aeadEncrypt key nonce msg) = some msg)
    (hser : ∀ m, M.deserialize (M.serialize m) = some m)
    (hsalt : salt.length = 32) (hn : nonce.length = NONCE_LEN) :
    roundtripRotate M path params salt p1 p2 sets nonce
      = .ok ⟨path, params, salt, some (insertAll sets)⟩ ∧
    roundtripRotateCreate M path params salt p1 p2 sets nonce0 nonce
      = .ok ⟨path, params, salt, some (insertAll sets)⟩ := by
  have hunlock :
      PasswordStore.unlock M (PasswordStore.new path params salt)
          (some (nonce ++ M.aeadEncrypt (M.derive_key p2 salt params) nonce
            (M.serialize (insertAll sets)))) p2
        = .ok ⟨path, params, salt, some (insertAll sets)⟩ := by
    have hlen : ¬ (nonce ++ M.aeadEncrypt (M.derive_key p2 salt params) nonce
        (M.serialize (insertAll sets))).length < NONCE_LEN := by
      simp only [List.length_append, hn, NONCE_LEN]
      omega
    simp [PasswordStore.unlock, PasswordStore.new, hlen, List.take_left' hn,
      List.drop_left' hn, hdec, hser] <;> omega
  have h2 : applySets ⟨path, params, salt, some []⟩ sets
      = .ok ⟨path, params, salt, some (insertAll sets)⟩ :=
    applySets_unlocked path params salt [] sets
  have h3 : PasswordStore.save M ⟨path, params, salt, some (insertAll sets)⟩ nonce p2 none
      = .ok (some (nonce ++ M.aeadEncrypt (M.derive_key p2 salt params) nonce
          (M.serialize (insertAll sets)))) := rfl
  constructor
  · show roundtripRotate M path params salt p1 p2 sets nonce = _
    rw [roundtripRotate]
    have h1 : PasswordStore.unlock M (PasswordStore.new path params salt) none p1
        = .ok ⟨path, params, salt, some []⟩ := rfl
    simp only [h1, h2, h3]
    exact hunlock
  · show roundtripRotateCreate M path params salt p1 p2 sets nonce0 nonce = _
    rw [roundtripRotateCreate]
    have h1 : PasswordStore.create_empty M path params salt p1 nonce0 none
        = .ok (⟨path, params, salt, some []⟩,
            some (nonce0 ++ M.aeadEncrypt (M.derive_key p1 salt params) nonce0
              (M.serialize []))) := rfl
    have h3' : PasswordStore.save M ⟨path, params, salt, some (insertAll sets)⟩ nonce p2
        (some (nonce0 ++ M.aeadEncrypt (M.derive_key p1 salt params) nonce0
          (M.serialize [])))
        = .ok (some (nonce ++ M.aeadEncrypt (M.derive_key p2 salt params) nonce
            (M.serialize (insertAll sets)))) := rfl
    simp only [h1, h2, h3']
    exact hunlock

theorem roundtrip_rotation_C1_witness :
    roundtripRotate concreteModel [] ⟨1, 1, 1⟩ (List.replicate 32 7) "a".toList "b".toList
        [("k".toList, "v".toList)] (List.replicate 12 0)
      = .ok ⟨[], ⟨1, 1, 1⟩, List.replicate 32 7,
          some (insertAll [("k".toList, "v".toList)])⟩ :=
  (roundtrip_rotation_C1 concreteModel [] ⟨1, 1, 1⟩ (List.replicate 32 7) "a".toList
    "b".toList [("k".toList, "v".toList)] [5] (List.replicate 12 0)
    concreteModel_decrypt_encrypt concreteModel_deserialize_serialize
    (by decide) (by decide)).1

/-- Claim C8 records a code bug: templatize rewrites Plain PORT 3000 as the
line PORT=en://PORT, whose secret name is the key itself, but the import
loop stores the value under the lowercased name port; resolving the
rewritten file against the updated store then fails with SecretNotFound
PORT instead of recovering 3000. -/
theorem import_naming_divergence_C8 :
    parse "PORT=3000".toList = .ok [.Plain "PORT".toList "3000".toList] ∧
    importSets [.Plain "PORT".toList "3000".toList] []
      = [("port".toList, "3000".toList)] ∧
    templatize [.Plain "PORT".toList "3000".toList] = ["PORT=en://PORT".toList] ∧
    parse (joinNl (templatize [.Plain "PORT".toList "3000".toList]))
      = .ok [.LocalRef "PORT".toList "PORT".toList] ∧
    resolve [.LocalRef "PORT".toList "PORT".toList]
        [("port".toList, "3000".toList)] []
      = .error (.SecretNotFound "PORT".toList) :=
  ⟨by decide, by decide, by decide, by decide, by decide⟩

/-- Claim C4 is refuted at the line K=ev://x: its value starts with
neither the en local prefix nor the en global prefix, so the claim as
stated classifies it as Plain, but the parser returns a LocalRef through
the legacy ev token branch. -/
theorem parser_classification_C4_counterexample :
    parse_line "K=ev://x".toList = .ok (.LocalRef "K".toList "x".toList, true) ∧
    (.LocalRef "K".toList "x".toList : EnvLine) ≠ .Plain "K".toList "ev://x".toList :=
  ⟨by decide, by decide⟩

theorem lookupA_insertA {α β : Type} [DecidableEq α] (k k' : α) (v : β)
    (m : List (α × β)) :
    lookupA k' (insertA k v m) = if k = k' then some v else lookupA k' m := by
  induction m with
  | nil => simp [insertA, lookupA]
  | cons e m ih =>
    obtain ⟨k0, v0⟩ := e
    by_cases h1 : k0 = k
    · subst h1
      by_cases h2 : k0 = k'
      · subst h2
        simp [insertA, lookupA]
      · simp [insertA, lookupA, h2]
    · by_cases h2 : k0 = k'
      · subst h2
        have h3 : ¬ k = k0 := fun h => h1 h.symm
        simp [insertA, lookupA, h1, h3]
      · simp [insertA, lookupA, h1, h2, ih]

theorem badName_cons (l : EnvLine) (ls : List EnvLine) (lm gm : SecretMap) (nm : Str)
    (h : badName ls lm gm nm) : badName (l :: ls) lm gm nm := by
  rcases h with ⟨k, n, hmem, hlk, hnm⟩ | ⟨k, n, hmem, hlk, hnm⟩
  · exact Or.inl ⟨k, n, List.mem_cons_of_mem _ hmem, hlk, hnm⟩
  · exact Or.inr ⟨k, n, List.mem_cons_of_mem _ hmem, hlk, hnm⟩

theorem resolveAux_ok (lm gm : SecretMap) (ls : List EnvLine) (env : SecretMap)
    (h : allResolvable ls lm gm = true) :
    resolveAux lm gm env ls = .ok (ls.foldl (applyContribution lm gm) env) := by
  induction ls generalizing env with
  | nil => rfl
  | cons l ls ih =>
    simp only [allResolvable, List.all_cons, Bool.and_eq_true] at h
    obtain ⟨hl, hls⟩ := h
    cases l with
    | Passthrough s =>
      simp only [resolveAux, List.foldl_cons, applyContribution, contribution]
      exact ih env hls
    | Plain k v =>
      simp only [resolveAux, List.foldl_cons, applyContribution, contribution]
      exact ih _ hls
    | LocalRef k n =>
      simp only [lineResolvable] at hl
      obtain ⟨v, hv⟩ := Option.isSome_iff_exists.mp hl
      simp only [resolveAux, hv, List.foldl_cons, applyContribution, contribution,
        Option.map_some']
      exact ih _ hls
    | GlobalRef k n =>
      simp only [lineResolvable] at hl
      obtain ⟨v, hv⟩ := Option.isSome_iff_exists.mp hl
      simp only [resolveAux, hv, List.foldl_cons, applyContribution, contribution,
        Option.map_some']
      exact ih _ hls

theorem resolveAux_err (lm gm : SecretMap) (ls : List EnvLine) (env : SecretMap)
    (h : allResolvable ls lm gm = false) :
    ∃ nm, resolveAux lm gm env ls = .error (.SecretNotFound nm) ∧ badName ls lm gm nm := by
  induction ls generalizing env with
  | nil => simp [allResolvable] at h
  | cons l ls ih =>
    by_cases hl : lineResolvable lm gm l = true
    · have hls : allResolvable ls lm gm = false := by
        simp only [allResolvable, List.all_cons, hl, Bool.true_and] at h
        exact h
      cases l with
      | Passthrough s =>
        obtain ⟨nm, heq, hbad⟩ := ih env hls
        exact ⟨nm, by simpa [resolveAux] using heq, badName_cons _ _ _ _ _ hbad⟩
      | Plain k v =>
        obtain ⟨nm, heq, hbad⟩ := ih _ hls
        exact ⟨nm, by simpa [resolveAux] using heq, badName_cons _ _ _ _ _ hbad⟩
      | LocalRef k n =>
        simp only [lineResolvable] at hl
        obtain ⟨v, hv⟩ := Option.isSome_iff_exists.mp hl
        obtain ⟨nm, heq, hbad⟩ := ih (insertA k v env) hls
        exact ⟨nm, by simpa [resolveAux, hv] using heq, badName_cons _ _ _ _ _ hbad⟩
      | GlobalRef k n =>
        simp only [lineResolvable] at hl
        obtain ⟨v, hv⟩ := Option.isSome_iff_exists.mp hl
        obtain ⟨nm, heq, hbad⟩ := ih (insertA k v env) hls
        exact ⟨nm, by simpa [resolveAux, hv] using heq, badName_cons _ _ _ _ _ hbad⟩
    · cases l with
      | Passthrough s => simp [lineResolvable] at hl
      | Plain k v => simp [lineResolvable] at hl
      | LocalRef k n =>
        have hnone : lookupA n lm = none := by
          cases hcase : lookupA n lm with
          | none => rfl
          | some v => exact absurd (by simp [lineResolvable, hcase]) hl
        refine ⟨n, by simp [resolveAux, hnone], Or.inl ⟨k, n, ?_, hnone, rfl⟩⟩
        exact List.mem_cons_self _ _
      | GlobalRef k n =>
        have hnone : lookupA n gm = none := by
          cases hcase : lookupA n gm with
          | none => rfl
          | some v => exact absurd (by simp [lineResolvable, hcase]) hl
        refine ⟨"global/".toList ++ n, by simp [resolveAux, hnone],
          Or.inr ⟨k, n, ?_, hnone, rfl⟩⟩
        exact List.mem_cons_self _ _

theorem resolveAux_ok_resolvable (lm gm : SecretMap) (ls : List EnvLine)
    (env env' : SecretMap) (h : resolveAux lm gm env ls = .ok env') :
    allResolvable ls lm gm = true := by
  by_contra hfalse
  have hf : allResolvable ls lm gm = false := by
    cases hall : allResolvable ls lm gm
    · rfl
    · exact absurd hall hfalse
  obtain ⟨nm, heq, _⟩ := resolveAux_err lm gm ls env hf
  rw [heq] at h
  cases h

/-- Claim C3: resolution is all-or-nothing with named failures.  Resolve
succeeds exactly when every LocalRef name is in the local map and every
GlobalRef name is in the global map; when some reference is absent the
result is a SecretNotFound error carrying the name of an absent reference
(with the global marker for a GlobalRef) and no partial map exists; a
successful result is the fold of per-line contributions, in which
Passthrough lines contribute nothing and Plain lines their literal
value. -/
theorem resolve_all_or_nothing_C3 (lines : List EnvLine) (lm gm : SecretMap) :
    ((∃ env, resolve lines lm gm = .ok env) ↔ allResolvable lines lm gm = true) ∧
    (allResolvable lines lm gm = false →
      ∃ nm, resolve lines lm gm = .error (.SecretNotFound nm) ∧ badName lines lm gm nm) ∧
    (∀ env, resolve lines lm gm = .ok env →
      env = lines.foldl (applyContribution lm gm) []) := by
  refine ⟨⟨?_, ?_⟩, ?_, ?_⟩
  · rintro ⟨env, henv⟩
    exact resolveAux_ok_resolvable lm gm lines [] env henv
  · intro h
    exact ⟨_, resolveAux_ok lm gm lines [] h⟩
  · intro h
    exact resolveAux_err lm gm lines [] h
  · intro env h
    have hall := resolveAux_ok_resolvable lm gm lines [] env h
    have hok := resolveAux_ok lm gm lines [] hall
    have : Except.ok (ε := EnjectError) (lines.foldl (applyContribution lm gm) []) = .ok env :=
      hok.symm.trans h
    exact (Except.ok.inj this).symm

theorem resolve_all_or_nothing_C3_witness :
    (∃ nm, resolve [.LocalRef "DB".toList "missing".toList] [] []
        = .error (.SecretNotFound nm) ∧
      badName [.LocalRef "DB".toList "missing".toList] [] [] nm) ∧
    ([("PORT".toList, "3000".toList)] : SecretMap)
      = [EnvLine.Passthrough "#c".toList, EnvLine.Plain "PORT".toList "3000".toList].foldl
          (applyContribution [] []) [] :=
  ⟨(resolve_all_or_nothing_C3 [.LocalRef "DB".toList "missing".toList] [] []).2.1
      (by decide),
   (resolve_all_or_nothing_C3
      [EnvLine.Passthrough "#c".toList, EnvLine.Plain "PORT".toList "3000".toList] [] []).2.2
      [("PORT".toList, "3000".toList)] (by decide)⟩

theorem lookupA_foldl_untouched (lm gm : SecretMap) (ls : List EnvLine) (env : SecretMap)
    (k : Str) (h : ∀ l ∈ ls, (contribution lm gm l).map Prod.fst ≠ some k) :
    lookupA k (ls.foldl (applyContribution lm gm) env) = lookupA k env := by
  induction ls generalizing env with
  | nil => rfl
  | cons l ls ih =>
    have hl := h l (List.mem_cons_self l ls)
    have hls : ∀ l' ∈ ls, (contribution lm gm l').map Prod.fst ≠ some k :=
      fun l' hl' => h l' (List.mem_cons_of_mem l hl')
    rw [List.foldl_cons, ih _ hls]
    cases hc : contribution lm gm l with
    | none => simp [applyContribution, hc]
    | some p =>
      obtain ⟨k', v'⟩ := p
      have hk : ¬ k' = k := by
        intro he
        apply hl
        rw [hc, he]
        rfl
      simp [applyContribution, hc, lookupA_insertA, hk]

/-- Claim C9 (implicit): duplicate keys resolve to the last occurrence.
If a successful resolve sees a line binding key k whose later lines bind
only other keys, the returned environment maps k to the value contributed
by that line; earlier bindings of k are silently overwritten and never
reported as an error. -/
theorem duplicate_last_wins_C9 (ls1 ls2 : List EnvLine) (l : EnvLine)
    (lm gm env : SecretMap) (k v : Str)
    (hres : resolve (ls1 ++ l :: ls2) lm gm = .ok env)
    (hc : contribution lm gm l = some (k, v))
    (hafter : ∀ l' ∈ ls2, (contribution lm gm l').map Prod.fst ≠ some k) :
    lookupA k env = some v := by
  have hall := resolveAux_ok_resolvable lm gm _ [] env hres
  have hok := resolveAux_ok lm gm (ls1 ++ l :: ls2) [] hall
  have henv : (ls1 ++ l :: ls2).foldl (applyContribution lm gm) [] = env :=
    Except.ok.inj (hok.symm.trans hres)
  rw [← henv, List.foldl_append, List.foldl_cons,
    lookupA_foldl_untouched lm gm ls2 _ k hafter]
  simp [applyContribution, hc, lookupA_insertA]

theorem duplicate_last_wins_C9_witness :
    lookupA "A".toList
        ([("A".toList, "2".toList), ("B".toList, "3".toList)] : SecretMap)
      = some "2".toList :=
  duplicate_last_wins_C9 [.Plain "A".toList "1".toList] [.Plain "B".toList "3".toList]
    (.Plain "A".toList "2".toList) [] []
    [("A".toList, "2".toList), ("B".toList, "3".toList)]
    "A".toList "2".toList (by decide) (by decide) (by decide)

theorem getLast?_append_right (l r : Str) (h : r ≠ []) :
    (l ++ r).getLast? = r.getLast? := by
  obtain ⟨x, hx⟩ := Option.isSome_iff_exists.mp (List.getLast?_isSome.mpr h)
  rw [List.getLast?_append, hx]
  rfl

theorem getLast?_drop_of_ne_nil (l : Str) (i : Nat) (h : l.drop i ≠ []) :
    (l.drop i).getLast? = l.getLast? := by
  conv_rhs => rw [← List.take_append_drop i l]
  rw [getLast?_append_right _ _ h]

theorem head?_append_left (k r : Str) (h : k ≠ []) : (k ++ r).head? = k.head? := by
  cases k with
  | nil => exact absurd rfl h
  | cons c t => rfl

theorem dropWhile_idem (p : Char → Bool) (l : Str) :
    (l.dropWhile p).dropWhile p = l.dropWhile p := by
  induction l with
  | nil => rfl
  | cons c l ih =>
    by_cases h : p c
    · simp [List.dropWhile_cons, h, ih]
    · simp [List.dropWhile_cons, h]

theorem dropWhile_eq_self_iff_head (p : Char → Bool) (l : Str) :
    l.dropWhile p = l ↔ ∀ c, l.head? = some c → p c = false := by
  cases l with
  | nil => simp
  | cons c t =>
    rw [List.dropWhile_cons]
    by_cases h : p c
    · rw [if_pos h]
      constructor
      · intro he
        have hlen := congrArg List.length he
        have hle : (t.dropWhile p).length ≤ t.length :=
          (List.dropWhile_sublist (p := p) (l := t)).length_le
        simp only [List.length_cons] at hlen
        omega
      · intro hc
        exact absurd h (by simp [hc c rfl])
    · rw [if_neg h]
      constructor
      · intro _ c' hc'
        injection hc' with he
        subst he
        exact Bool.not_eq_true _ |>.mp h
      · intro _
        rfl

theorem trimEnd_eq_self_iff (s : Str) : trimEnd s = s ↔ lastNotWs s := by
  unfold trimEnd lastNotWs
  rw [List.reverse_eq_iff, dropWhile_eq_self_iff_head]
  constructor
  · intro h c hc
    exact h c (by rw [List.head?_reverse]; exact hc)
  · intro h c hc
    exact h c (by rw [← List.head?_reverse]; exact hc)

theorem trimEnd_idem (s : Str) : trimEnd (trimEnd s) = trimEnd s := by
  show (((s.reverse.dropWhile isWs).reverse.reverse).dropWhile isWs).reverse
      = (s.reverse.dropWhile isWs).reverse
  rw [List.reverse_reverse, dropWhile_idem]

theorem trimEnd_lastNotWs (s : Str) : lastNotWs (trimEnd s) :=
  (trimEnd_eq_self_iff (trimEnd s)).mp (trimEnd_idem s)

theorem lastNotWs_drop (l : Str) (j : Nat) (h : lastNotWs l) : lastNotWs (l.drop j) := by
  intro c hc
  have hne : l.drop j ≠ [] := by
    intro he
    rw [he] at hc
    cases hc
  rw [getLast?_drop_of_ne_nil l j hne] at hc
  exact h c hc

theorem trimStart_head (s : Str) :
    ∀ c, (trimStart s).head? = some c → isWs c = false := by
  unfold trimStart
  induction s with
  | nil => intro c hc; cases hc
  | cons d t ih =>
    by_cases h : isWs d
    · intro c hc
      rw [List.dropWhile_cons, if_pos h] at hc
      exact ih c hc
    · intro c hc
      rw [List.dropWhile_cons, if_neg h] at hc
      injection hc with he
      subst he
      exact Bool.not_eq_true _ |>.mp h

theorem trimEnd_prefix (s : Str) : trimEnd s <+: s := by
  have h1 := List.reverse_prefix.mpr (List.dropWhile_suffix (l := s.reverse) isWs)
  rwa [List.reverse_reverse] at h1

theorem trimEnd_head (s : Str) (h : trimEnd s ≠ []) : (trimEnd s).head? = s.head? := by
  obtain ⟨t, ht⟩ := trimEnd_prefix s
  conv_rhs => rw [← ht]
  rw [head?_append_left _ _ h]

theorem trim_idem (s : Str) : trim (trim s) = trim s := by
  unfold trim
  have h1 : trimStart (trimEnd (trimStart s)) = trimEnd (trimStart s) := by
    by_cases h : trimEnd (trimStart s) = []
    · rw [h]
      rfl
    · show List.dropWhile isWs (trimEnd (trimStart s)) = trimEnd (trimStart s)
      rw [dropWhile_eq_self_iff_head]
      intro c hc
      rw [trimEnd_head _ h] at hc
      exact trimStart_head s c hc
  rw [h1, trimEnd_idem]

theorem mem_of_mem_trimEnd {c : Char} {s : Str} (h : c ∈ trimEnd s) : c ∈ s := by
  unfold trimEnd at h
  rw [List.mem_reverse] at h
  rw [← List.mem_reverse]
  exact (List.dropWhile_sublist (p := isWs) (l := s.reverse)).mem h

theorem mem_of_mem_trim {c : Char} {s : Str} (h : c ∈ trim s) : c ∈ s := by
  unfold trim trimStart at h
  exact (List.dropWhile_sublist (p := isWs) (l := s)).mem (mem_of_mem_trimEnd h)

theorem findChar_eq_none (c : Char) (l : Str) : findChar c l = none ↔ c ∉ l := by
  induction l with
  | nil => simp [findChar]
  | cons d l ih =>
    by_cases h : d = c
    · subst h
      simp [findChar]
    · have hcd : ¬ c = d := fun hc => h hc.symm
      simp [findChar, h, hcd, Option.map_eq_none', ih]

theorem findChar_append_cons (c : Char) (k rest : Str) (h : c ∉ k) :
    findChar c (k ++ c :: rest) = some k.length := by
  induction k with
  | nil => simp [findChar]
  | cons d k ih =>
    simp only [List.mem_cons, not_or] at h
    have hd : ¬ d = c := fun he => h.1 he.symm
    simp [findChar, hd, ih h.2]

theorem findChar_take_drop (c : Char) (l : Str) (i : Nat)
    (h : findChar c l = some i) :
    l.take i = l.takeWhile (fun d => d ≠ c) ∧
      l.drop (i + 1) = (l.dropWhile (fun d => d ≠ c)).tail ∧
      c ∉ l.take i := by
  induction l generalizing i with
  | nil => cases h
  | cons d l ih =>
    by_cases hd : d = c
    · subst hd
      simp only [findChar, if_true, eq_self_iff_true, Option.some.injEq] at h
      subst h
      simp [List.takeWhile_cons, List.dropWhile_cons]
    · simp only [findChar, if_neg hd, Option.map_eq_some'] at h
      obtain ⟨j, hj, hij⟩ := h
      subst hij
      obtain ⟨h1, h2, h3⟩ := ih j hj
      refine ⟨?_, ?_, ?_⟩
      · simp [List.takeWhile_cons, hd, h1]
      · simp [List.dropWhile_cons, hd, h2]
      · simp only [List.take_succ_cons, List.mem_cons, not_or]
        exact ⟨fun hc => hd hc.symm, h3⟩

theorem findChar_of_mem (c : Char) (l : Str) (h : c ∈ l) :
    ∃ i, findChar c l = some i := by
  cases hfc : findChar c l with
  | none => exact absurd h ((findChar_eq_none c l).mp hfc)
  | some i => exact ⟨i, rfl⟩

theorem stripPre_append_both {α : Type} [DecidableEq α] (a b c : List α) :
    stripPre (a ++ b) (a ++ c) = stripPre b c := by
  induction a with
  | nil => rfl
  | cons x a ih => simp [stripPre, ih]

theorem stripPre_none_iff {α : Type} [DecidableEq α] (p s : List α) :
    stripPre p s = none ↔ ¬ p <+: s := by
  constructor
  · rintro h ⟨t, ht⟩
    rw [← ht, stripPre_append] at h
    cases h
  · intro h
    cases hs : stripPre p s with
    | none => rfl
    | some r => exact absurd ⟨r, (stripPre_eq_some.mp hs).symm⟩ h

theorem stripPre_isPre {α : Type} [DecidableEq α] (p s : List α) (h : p <+: s) :
    stripPre p s = some (s.drop p.length) := by
  obtain ⟨t, ht⟩ := h
  rw [← ht, stripPre_append, List.drop_left]

theorem trimEnd_append (a b : Str) :
    trimEnd (a ++ b) = if trimEnd b = [] then trimEnd a else a ++ trimEnd b := by
  unfold trimEnd
  rw [List.reverse_append, List.dropWhile_append]
  by_cases h : (List.dropWhile isWs b.reverse).isEmpty
  · rw [if_pos h]
    rw [List.isEmpty_iff] at h
    rw [if_pos (by rw [h]; rfl)]
  · rw [if_neg h]
    rw [List.isEmpty_iff] at h
    rw [if_neg (by simp [h]), List.reverse_append, List.reverse_reverse]

theorem trimEnd_cons_eq (v : Str) : trimEnd ('=' :: v) = '=' :: trimEnd v := by
  rw [show ('=' :: v) = ['='] ++ v from rfl, trimEnd_append]
  by_cases hv : trimEnd v = []
  · rw [if_pos hv, hv]
    rfl
  · rw [if_neg hv]
    rfl

theorem parse_line_keyval (K v : Str) (hk : K ≠ []) (hh : K.head? ≠ some '#')
    (he : '=' ∉ K) :
    parse_line (K ++ '=' :: v)
      = if trim K = [] then .error (.Config "Malformed .env line: empty key")
        else classifyValue (trim K) (trimEnd v) := by
  have ht : trimEnd (K ++ '=' :: v) = K ++ '=' :: trimEnd v := by
    rw [trimEnd_append, trimEnd_cons_eq, if_neg (by simp)]
  have hcond : ¬ (trimEnd (K ++ '=' :: v) = []
      ∨ (trimEnd (K ++ '=' :: v)).head? = some '#') := by
    rw [ht]
    push_neg
    constructor
    · simp
    · rw [head?_append_left _ _ hk]
      exact hh
  have hfc : findChar '=' (trimEnd (K ++ '=' :: v)) = some K.length := by
    rw [ht]
    exact findChar_append_cons '=' K (trimEnd v) he
  have htake : (trimEnd (K ++ '=' :: v)).take K.length = K := by
    rw [ht]
    exact List.take_left K ('=' :: trimEnd v)
  have hdrop : (trimEnd (K ++ '=' :: v)).drop (K.length + 1) = trimEnd v := by
    rw [ht, show K ++ '=' :: trimEnd v = (K ++ ['=']) ++ trimEnd v by simp,
      List.drop_left' (by simp)]
  rw [parse_line, if_neg hcond]
  simp only [hfc, htake, hdrop]

theorem classify_en_local (key n : Str) (hn : n ≠ [])
    (hng : stripPre "global/".toList n = none) :
    classifyValue key (enToken ++ n) = .ok (.LocalRef key n, false) := by
  have h1 : stripPre enGlobalToken (enToken ++ n) = none := by
    rw [show enGlobalToken = enToken ++ "global/".toList from rfl,
      stripPre_append_both]
    exact hng
  simp only [classifyValue, h1, stripPre_append, if_neg hn]

theorem classify_en_global (key n : Str) (hn : n ≠ []) :
    classifyValue key (enGlobalToken ++ n) = .ok (.GlobalRef key n, false) := by
  simp only [classifyValue, stripPre_append, if_neg hn]

theorem classify_ev_local (key n : Str) (hn : n ≠ [])
    (hng : stripPre "global/".toList n = none) :
    classifyValue key (evToken ++ n) = .ok (.LocalRef key n, true) := by
  have h1 : stripPre enGlobalToken (evToken ++ n) = none := rfl
  have h2 : stripPre enToken (evToken ++ n) = none := rfl
  have h3 : stripPre evGlobalToken (evToken ++ n) = none := by
    rw [show evGlobalToken = evToken ++ "global/".toList from rfl,
      stripPre_append_both]
    exact hng
  simp only [classifyValue, h1, h2, h3, stripPre_append, if_neg hn]

theorem classify_ev_global (key n : Str) (hn : n ≠ []) :
    classifyValue key (evGlobalToken ++ n) = .ok (.GlobalRef key n, true) := by
  have h1 : stripPre enGlobalToken (evGlobalToken ++ n) = none := rfl
  have h2 : stripPre enToken (evGlobalToken ++ n) = none := rfl
  simp only [classifyValue, h1, h2, stripPre_append, if_neg hn]

theorem classify_en_token_err (key : Str) :
    classifyValue key enToken
      = .error (.Config "Malformed en reference: empty secret name") := rfl

theorem classify_ev_token_err (key : Str) :
    classifyValue key evToken
      = .error (.Config "Malformed ev reference: empty secret name") := rfl

theorem classify_en_global_token_err (key : Str) :
    classifyValue key enGlobalToken
      = .error (.Config "Malformed en reference: empty secret name") := rfl

theorem classify_ev_global_token_err (key : Str) :
    classifyValue key evGlobalToken
      = .error (.Config "Malformed ev reference: empty secret name") := rfl

theorem parse_line_ok_split {s : Str} {l : EnvLine} {b : Bool}
    (h : parse_line s = .ok (l, b)) :
    ((trimEnd s = [] ∨ (trimEnd s).head? = some '#') ∧ l = .Passthrough s ∧ b = false) ∨
    (¬(trimEnd s = [] ∨ (trimEnd s).head? = some '#') ∧
      ∃ i, findChar '=' (trimEnd s) = some i ∧
        trim ((trimEnd s).take i) ≠ [] ∧
        classifyValue (trim ((trimEnd s).take i)) ((trimEnd s).drop (i + 1))
          = .ok (l, b)) := by
  rw [parse_line] at h
  split at h
  · rename_i hcond
    injection h with h'
    injection h' with h1 h2
    exact Or.inl ⟨hcond, h1.symm, h2.symm⟩
  · rename_i hcond
    split at h
    · cases h
    · rename_i i hfc
      split at h
      · cases h
      · rename_i hkey
        exact Or.inr ⟨hcond, i, hfc, hkey, h⟩

theorem classifyValue_ok_split {key value : Str} {l : EnvLine} {b : Bool}
    (h : classifyValue key value = .ok (l, b)) :
    (∃ n, stripPre enGlobalToken value = some n ∧ n ≠ [] ∧
      l = .GlobalRef key n ∧ b = false) ∨
    (stripPre enGlobalToken value = none ∧
      ∃ n, stripPre enToken value = some n ∧ n ≠ [] ∧
        l = .LocalRef key n ∧ b = false) ∨
    (stripPre enGlobalToken value = none ∧ stripPre enToken value = none ∧
      ∃ n, stripPre evGlobalToken value = some n ∧ n ≠ [] ∧
        l = .GlobalRef key n ∧ b = true) ∨
    (stripPre enGlobalToken value = none ∧ stripPre enToken value = none ∧
      stripPre evGlobalToken value = none ∧
      ∃ n, stripPre evToken value = some n ∧ n ≠ [] ∧
        l = .LocalRef key n ∧ b = true) ∨
    (stripPre enGlobalToken value = none ∧ stripPre enToken value = none ∧
      stripPre evGlobalToken value = none ∧ stripPre evToken value = none ∧
      l = .Plain key value ∧ b = false) := by
  rw [classifyValue] at h
  split at h
  · rename_i n h1
    split at h
    · cases h
    · rename_i hn
      injection h with h'
      injection h' with hl hb
      exact Or.inl ⟨n, h1, hn, hl.symm, hb.symm⟩
  · rename_i h1
    split at h
    · rename_i n h2
      split at h
      · cases h
      · rename_i hn
        injection h with h'
        injection h' with hl hb
        exact Or.inr (Or.inl ⟨h1, n, h2, hn, hl.symm, hb.symm⟩)
    · rename_i h2
      split at h
      · rename_i n h3
        split at h
        · cases h
        · rename_i hn
          injection h with h'
          injection h' with hl hb
          exact Or.inr (Or.inr (Or.inl ⟨h1, h2, n, h3, hn, hl.symm, hb.symm⟩))
      · rename_i h3
        split at h
        · rename_i n h4
          split at h
          · cases h
          · rename_i hn
            injection h with h'
            injection h' with hl hb
            exact Or.inr (Or.inr (Or.inr (Or.inl
              ⟨h1, h2, h3, n, h4, hn, hl.symm, hb.symm⟩)))
        · rename_i h4
          injection h with h'
          injection h' with hl hb
          exact Or.inr (Or.inr (Or.inr (Or.inr
            ⟨h1, h2, h3, h4, hl.symm, hb.symm⟩)))

theorem parse_line_ok_passthrough {s r : Str} {b : Bool}
    (h : parse_line s = .ok (.Passthrough r, b)) :
    r = s ∧ b = false ∧ (trimEnd s = [] ∨ (trimEnd s).head? = some '#') := by
  rcases parse_line_ok_split h with ⟨hcond, hl, hb⟩ | ⟨_, i, _, _, hcl⟩
  · injection hl with hr
    exact ⟨hr, hb, hcond⟩
  · rcases classifyValue_ok_split hcl with
      ⟨n, _, _, hl, _⟩ | ⟨_, n, _, _, hl, _⟩ | ⟨_, _, n, _, _, hl, _⟩ |
      ⟨_, _, _, n, _, _, hl, _⟩ | ⟨_, _, _, _, hl, _⟩ <;> cases hl

theorem parse_line_ok_localref {s k n : Str} {b : Bool}
    (h : parse_line s = .ok (.LocalRef k n, b)) :
    trim k = k ∧ k ≠ [] ∧ '=' ∉ k ∧ n ≠ [] ∧ lastNotWs n ∧
      stripPre "global/".toList n = none ∧ k ⊆ s ∧ n ⊆ s := by
  rcases parse_line_ok_split h with ⟨_, hl, _⟩ | ⟨_, i, hfc, hkey, hcl⟩
  · cases hl
  · obtain ⟨htw, hdw, hnm⟩ := findChar_take_drop '=' (trimEnd s) i hfc
    have hksub : trim ((trimEnd s).take i) ⊆ s := by
      intro c hc
      exact mem_of_mem_trimEnd (List.take_subset _ _ (mem_of_mem_trim hc))
    have hkeq : '=' ∉ trim ((trimEnd s).take i) :=
      fun hc => hnm (mem_of_mem_trim hc)
    have hlast : lastNotWs ((trimEnd s).drop (i + 1)) :=
      lastNotWs_drop _ _ (trimEnd_lastNotWs s)
    have hvsub : (trimEnd s).drop (i + 1) ⊆ s :=
      fun c hc => mem_of_mem_trimEnd (List.drop_subset _ _ hc)
    rcases classifyValue_ok_split hcl with
      ⟨m, _, _, hl, _⟩ | ⟨hg, m, hst, hm, hl, _⟩ | ⟨_, _, m, _, _, hl, _⟩ |
      ⟨hg, _, hevg, m, hst, hm, hl, _⟩ | ⟨_, _, _, _, hl, _⟩
    · cases hl
    · injection hl with hk0 hn0
      subst hk0
      subst hn0
      have hval := stripPre_eq_some.mp hst
      refine ⟨trim_idem _, hkey, hkeq, hm, ?_, ?_, hksub, ?_⟩
      · intro c hc
        exact hlast c (by rw [hval, getLast?_append_right _ _ hm]; exact hc)
      · rw [show enGlobalToken = enToken ++ "global/".toList from rfl, hval,
          stripPre_append_both] at hg
        exact hg
      · intro c hc
        exact hvsub (by rw [hval]; exact List.mem_append_right _ hc)
    · cases hl
    · injection hl with hk0 hn0
      subst hk0
      subst hn0
      have hval := stripPre_eq_some.mp hst
      refine ⟨trim_idem _, hkey, hkeq, hm, ?_, ?_, hksub, ?_⟩
      · intro c hc
        exact hlast c (by rw [hval, getLast?_append_right _ _ hm]; exact hc)
      · rw [show evGlobalToken = evToken ++ "global/".toList from rfl, hval,
          stripPre_append_both] at hevg
        exact hevg
      · intro c hc
        exact hvsub (by rw [hval]; exact List.mem_append_right _ hc)
    · cases hl

theorem parse_line_ok_globalref {s k n : Str} {b : Bool}
    (h : parse_line s = .ok (.GlobalRef k n, b)) :
    trim k = k ∧ k ≠ [] ∧ '=' ∉ k ∧ n ≠ [] ∧ lastNotWs n ∧ k ⊆ s ∧ n ⊆ s := by
  rcases parse_line_ok_split h with ⟨_, hl, _⟩ | ⟨_, i, hfc, hkey, hcl⟩
  · cases hl
  · obtain ⟨htw, hdw, hnm⟩ := findChar_take_drop '=' (trimEnd s) i hfc
    have hksub : trim ((trimEnd s).take i) ⊆ s := by
      intro c hc
      exact mem_of_mem_trimEnd (List.take_subset _ _ (mem_of_mem_trim hc))
    have hkeq : '=' ∉ trim ((trimEnd s).take i) :=
      fun hc => hnm (mem_of_mem_trim hc)
    have hlast : lastNotWs ((trimEnd s).drop (i + 1)) :=
      lastNotWs_drop _ _ (trimEnd_lastNotWs s)
    have hvsub : (trimEnd s).drop (i + 1) ⊆ s :=
      fun c hc => mem_of_mem_trimEnd (List.drop_subset _ _ hc)
    rcases classifyValue_ok_split hcl with
      ⟨m, hst, hm, hl, _⟩ | ⟨_, m, _, _, hl, _⟩ | ⟨_, _, m, hst, hm, hl, _⟩ |
      ⟨_, _, _, m, _, _, hl, _⟩ | ⟨_, _, _, _, hl, _⟩
    · injection hl with hk0 hn0
      subst hk0
      subst hn0
      have hval := stripPre_eq_some.mp hst
      refine ⟨trim_idem _, hkey, hkeq, hm, ?_, hksub, ?_⟩
      · intro c hc
        exact hlast c (by rw [hval, getLast?_append_right _ _ hm]; exact hc)
      · intro c hc
        exact hvsub (by rw [hval]; exact List.mem_append_right _ hc)
    · cases hl
    · injection hl with hk0 hn0
      subst hk0
      subst hn0
      have hval := stripPre_eq_some.mp hst
      refine ⟨trim_idem _, hkey, hkeq, hm, ?_, hksub, ?_⟩
      · intro c hc
        exact hlast c (by rw [hval, getLast?_append_right _ _ hm]; exact hc)
      · intro c hc
        exact hvsub (by rw [hval]; exact List.mem_append_right _ hc)
    · cases hl
    · cases hl

theorem reparse_localref (k n : Str) (hh : k.head? ≠ some '#') (htk : trim k = k)
    (hk : k ≠ []) (he : '=' ∉ k) (hn : n ≠ []) (hlast : lastNotWs n)
    (hng : stripPre "global/".toList n = none) :
    parse_line (k ++ '=' :: (enToken ++ n)) = .ok (.LocalRef k n, false) := by
  have harg : trimEnd (enToken ++ n) = enToken ++ n := by
    rw [trimEnd_eq_self_iff]
    intro c hc
    rw [getLast?_append_right _ _ hn] at hc
    exact hlast c hc
  rw [parse_line_keyval k (enToken ++ n) hk hh he, harg, htk, if_neg hk]
  exact classify_en_local k n hn hng

theorem reparse_globalref (k n : Str) (hh : k.head? ≠ some '#') (htk : trim k = k)
    (hk : k ≠ []) (he : '=' ∉ k) (hn : n ≠ []) (hlast : lastNotWs n) :
    parse_line (k ++ '=' :: (enGlobalToken ++ n)) = .ok (.GlobalRef k n, false) := by
  have harg : trimEnd (enGlobalToken ++ n) = enGlobalToken ++ n := by
    rw [trimEnd_eq_self_iff]
    intro c hc
    rw [getLast?_append_right _ _ hn] at hc
    exact hlast c hc
  rw [parse_line_keyval k (enGlobalToken ++ n) hk hh he, harg, htk, if_neg hk]
  exact classify_en_global k n hn

theorem reparse_ev_localref (k n : Str) (hh : k.head? ≠ some '#') (htk : trim k = k)
    (hk : k ≠ []) (he : '=' ∉ k) (hn : n ≠ []) (hlast : lastNotWs n)
    (hng : stripPre "global/".toList n = none) :
    parse_line (k ++ '=' :: (evToken ++ n)) = .ok (.LocalRef k n, true) := by
  have harg : trimEnd (evToken ++ n) = evToken ++ n := by
    rw [trimEnd_eq_self_iff]
    intro c hc
    rw [getLast?_append_right _ _ hn] at hc
    exact hlast c hc
  rw [parse_line_keyval k (evToken ++ n) hk hh he, harg, htk, if_neg hk]
  exact classify_ev_local k n hn hng

theorem reparse_ev_globalref (k n : Str) (hh : k.head? ≠ some '#') (htk : trim k = k)
    (hk : k ≠ []) (he : '=' ∉ k) (hn : n ≠ []) (hlast : lastNotWs n) :
    parse_line (k ++ '=' :: (evGlobalToken ++ n)) = .ok (.GlobalRef k n, true) := by
  have harg : trimEnd (evGlobalToken ++ n) = evGlobalToken ++ n := by
    rw [trimEnd_eq_self_iff]
    intro c hc
    rw [getLast?_append_right _ _ hn] at hc
    exact hlast c hc
  rw [parse_line_keyval k (evGlobalToken ++ n) hk hh he, harg, htk, if_neg hk]
  exact classify_ev_global k n hn

theorem splitNl_no_nl_mem (s : Str) : ∀ x ∈ splitNl s, '\n' ∉ x := by
  induction s with
  | nil =>
    intro x hx
    simp only [splitNl, List.mem_singleton] at hx
    subst hx
    simp
  | cons c rest ih =>
    intro x hx
    rw [splitNl] at hx
    by_cases hc : c = '\n'
    · rw [if_pos hc] at hx
      rcases List.mem_cons.mp hx with h | h
      · subst h
        simp
      · exact ih x h
    · rw [if_neg hc] at hx
      cases hsp : splitNl rest with
      | nil =>
        simp only [hsp] at hx
        simp only [List.mem_singleton] at hx
        subst hx
        simp only [List.mem_singleton]
        exact fun he => hc he.symm
      | cons l ls =>
        simp only [hsp] at hx
        rcases List.mem_cons.mp hx with h | h
        · subst h
          intro hmem
          rcases List.mem_cons.mp hmem with h' | h'
          · exact hc h'.symm
          · exact ih l (by rw [hsp]; exact List.mem_cons_self _ _) h'
        · exact ih x (by rw [hsp]; exact List.mem_cons_of_mem _ h)

theorem splitNl_of_no_nl (l : Str) (h : '\n' ∉ l) : splitNl l = [l] := by
  induction l with
  | nil => rfl
  | cons c rest ih =>
    simp only [List.mem_cons, not_or] at h
    have hc : ¬ c = '\n' := fun he => h.1 he.symm
    rw [splitNl, if_neg hc, ih h.2]

theorem splitNl_append_nl (l rest : Str) (h : '\n' ∉ l) :
    splitNl (l ++ '\n' :: rest) = l :: splitNl rest := by
  induction l with
  | nil => simp [splitNl]
  | cons c t ih =>
    simp only [List.mem_cons, not_or] at h
    have hc : ¬ c = '\n' := fun he => h.1 he.symm
    rw [List.cons_append, splitNl, if_neg hc, ih h.2]

theorem joinNl_cons2 (l l2 : Str) (ls : List Str) :
    joinNl (l :: l2 :: ls) = l ++ '\n' :: joinNl (l2 :: ls) := rfl

theorem splitNl_joinNl (ls : List Str) (h : ∀ l ∈ ls, '\n' ∉ l) (hne : ls ≠ []) :
    splitNl (joinNl ls) = ls := by
  induction ls with
  | nil => exact absurd rfl hne
  | cons l ls ih =>
    cases ls with
    | nil => exact splitNl_of_no_nl l (h l (List.mem_cons_self _ _))
    | cons l2 ls2 =>
      rw [joinNl_cons2, splitNl_append_nl l _ (h l (List.mem_cons_self _ _)),
        ih (fun x hx => h x (List.mem_cons_of_mem _ hx)) (by simp)]

theorem map_stripCr_id (ls : List Str) (h : ∀ l ∈ ls, l.getLast? ≠ some '\r') :
    ls.map stripCr = ls := by
  induction ls with
  | nil => rfl
  | cons l ls ih =>
    rw [List.map_cons, ih (fun x hx => h x (List.mem_cons_of_mem _ hx)),
      show stripCr l = l from by rw [stripCr, if_neg (h l (List.mem_cons_self _ _))]]

theorem dropLast_map {α β : Type} (f : α → β) (l : List α) :
    (l.map f).dropLast = l.dropLast.map f := by
  induction l with
  | nil => rfl
  | cons a t ih =>
    cases t with
    | nil => rfl
    | cons b u =>
      show f a :: (List.map f (b :: u)).dropLast = f a :: (b :: u).dropLast.map f
      rw [ih]

theorem mem_of_getLast? {α : Type} {l : List α} {a : α} (h : l.getLast? = some a) :
    a ∈ l := by
  induction l with
  | nil => cases h
  | cons b t ih =>
    cases t with
    | nil =>
      simp only [List.getLast?_singleton, Option.some.injEq] at h
      subst h
      exact List.mem_cons_self _ _
    | cons c u =>
      rw [List.getLast?_cons_cons] at h
      exact List.mem_cons_of_mem _ (ih h)

theorem rustLines_joinNl (ls : List Str) (hnl : ∀ l ∈ ls, '\n' ∉ l)
    (hcr : ∀ l ∈ ls.dropLast, l.getLast? ≠ some '\r')
    (hlast : ls.getLast? ≠ some []) :
    rustLines (joinNl ls) = ls := by
  cases ls with
  | nil => rfl
  | cons l0 ls0 =>
    rw [rustLines, splitNl_joinNl _ hnl (by simp), map_stripCr_id _ hcr]
    obtain ⟨x, hx⟩ := Option.isSome_iff_exists.mp
      (List.getLast?_isSome.mpr (List.cons_ne_nil l0 ls0))
    have hxne : x ≠ [] := fun he => hlast (by rw [hx, he])
    rw [hx]
    cases x with
    | nil => exact absurd rfl hxne
    | cons c t =>
      show (l0 :: ls0).dropLast ++ [c :: t] = l0 :: ls0
      have hgl : (l0 :: ls0).getLast (by simp) = c :: t := by
        have h1 := List.getLast?_eq_getLast (l0 :: ls0) (by simp)
        rw [hx] at h1
        exact (Option.some.inj h1).symm
      rw [← hgl]
      exact List.dropLast_append_getLast (by simp)

theorem mem_rustLines_no_nl {s l : Str} (h : l ∈ rustLines s) : '\n' ∉ l := by
  rw [rustLines] at h
  rcases List.mem_append.mp h with h1 | h2
  · obtain ⟨p, hp, hlp⟩ := List.mem_map.mp h1
    have hp' : p ∈ splitNl s := (List.dropLast_sublist _).subset hp
    subst hlp
    intro hmem
    have hmem' : '\n' ∈ p := by
      rw [stripCr] at hmem
      split at hmem
      · exact (List.dropLast_sublist _).subset hmem
      · exact hmem
    exact splitNl_no_nl_mem s p hp' hmem'
  · cases hg : (splitNl s).getLast? with
    | none =>
      rw [hg] at h2
      cases h2
    | some p =>
      have hp' : p ∈ splitNl s := mem_of_getLast? hg
      rw [hg] at h2
      cases p with
      | nil => cases h2
      | cons c t =>
        have hl : l = c :: t := List.mem_singleton.mp h2
        subst hl
        exact splitNl_no_nl_mem s _ hp'

theorem parseLines_forall2 {raws : List Str} {ls : List EnvLine}
    (h : parseLines raws = .ok ls) :
    List.Forall₂ (fun s l => ∃ b, parse_line s = .ok (l, b)) raws ls := by
  induction raws generalizing ls with
  | nil =>
    rw [parseLines] at h
    cases h
    exact List.Forall₂.nil
  | cons r raws ih =>
    rw [parseLines] at h
    split at h
    · cases h
    · rename_i el b0 hp
      split at h
      · cases h
      · rename_i others hothers
        cases h
        exact List.Forall₂.cons ⟨b0, hp⟩ (ih hothers)

theorem parseLines_of_pointwise {raws : List Str} {ls : List EnvLine}
    (h : List.Forall₂ (fun s l => parse_line s = .ok (l, false)) raws ls) :
    parseLines raws = .ok ls := by
  induction h with
  | nil => rfl
  | cons h1 h2 ih => simp [parseLines, h1, ih]

theorem parseLines_ok_iff (raws : List Str) :
    (∃ ls, parseLines raws = .ok ls) ↔ ∀ l ∈ raws, ∃ r, parse_line l = .ok r := by
  induction raws with
  | nil => simp [parseLines]
  | cons r raws ih =>
    constructor
    · rintro ⟨ls, h⟩
      rw [parseLines] at h
      split at h
      · cases h
      · rename_i el b0 hp
        split at h
        · cases h
        · rename_i others hothers
          intro l hl
          rcases List.mem_cons.mp hl with h' | h'
          · subst h'
            exact ⟨(el, b0), hp⟩
          · exact ih.mp ⟨others, hothers⟩ l h'
    · intro hall
      obtain ⟨⟨el, b0⟩, hp⟩ := hall r (List.mem_cons_self _ _)
      obtain ⟨ls, hls⟩ := ih.mpr (fun l hl => hall l (List.mem_cons_of_mem _ hl))
      exact ⟨el :: ls, by simp [parseLines, hp, hls]⟩

theorem forall2_exists_left {α β : Type} {R : α → β → Prop} {as : List α}
    {bs : List β} (h : List.Forall₂ R as bs) {b : β} (hb : b ∈ bs) :
    ∃ a ∈ as, R a b := by
  induction h with
  | nil => cases hb
  | cons h1 h2 ih =>
    rcases List.mem_cons.mp hb with h' | h'
    · subst h'
      exact ⟨_, List.mem_cons_self _ _, h1⟩
    · obtain ⟨a, ha, hr⟩ := ih h'
      exact ⟨a, List.mem_cons_of_mem _ ha, hr⟩

theorem templatizeLine_eq_nil {l : EnvLine} (h : templatizeLine l = []) :
    l = .Passthrough [] := by
  cases l with
  | Passthrough s =>
    rw [templatizeLine] at h
    rw [h]
  | Plain k v =>
    rw [templatizeLine] at h
    simp at h
  | LocalRef k n =>
    rw [templatizeLine] at h
    simp at h
  | GlobalRef k n =>
    rw [templatizeLine] at h
    simp at h

theorem reparse_line {s : Str} {l : EnvLine} {b : Bool}
    (h : parse_line s = .ok (l, b)) (hnl : '\n' ∉ s)
    (hplain : isPlain l = false)
    (hkey : (refKey l).map List.head? ≠ some (some '#')) :
    parse_line (templatizeLine l) = .ok (l, false) ∧
      '\n' ∉ templatizeLine l ∧
      ((rawText l).map List.getLast? ≠ some (some '\r') →
        (templatizeLine l).getLast? ≠ some '\r') := by
  cases l with
  | Passthrough r =>
    obtain ⟨hr, hb, hcond⟩ := parse_line_ok_passthrough h
    subst hr
    subst hb
    refine ⟨h, hnl, ?_⟩
    intro hcr
    simpa [rawText] using hcr
  | Plain k v =>
    rw [isPlain] at hplain
    cases hplain
  | LocalRef k n =>
    obtain ⟨htk, hk, he, hn, hlast, hng, hks, hns⟩ := parse_line_ok_localref h
    have hh : k.head? ≠ some '#' := by
      intro hc
      apply hkey
      rw [refKey, Option.map_some', hc]
    have hz : enToken ++ n ≠ [] := fun hE => hn (List.append_eq_nil.mp hE).2
    refine ⟨reparse_localref k n hh htk hk he hn hlast hng, ?_, fun _ => ?_⟩
    · intro hmem
      rw [templatizeLine] at hmem
      rcases List.mem_append.mp hmem with h1 | h2
      · exact hnl (hks h1)
      · rcases List.mem_cons.mp h2 with h3 | h4
        · exact absurd h3 (by decide)
        · rcases List.mem_append.mp h4 with h5 | h6
          · exact absurd h5 (by decide)
          · exact hnl (hns h6)
    · intro hc
      rw [templatizeLine,
        getLast?_append_right _ _ (List.cons_ne_nil _ _),
        show ('=' :: (enToken ++ n)) = ['='] ++ (enToken ++ n) from rfl,
        getLast?_append_right _ _ hz, getLast?_append_right _ _ hn] at hc
      exact absurd (hlast '\r' hc) (by decide)
  | GlobalRef k n =>
    obtain ⟨htk, hk, he, hn, hlast, hks, hns⟩ := parse_line_ok_globalref h
    have hh : k.head? ≠ some '#' := by
      intro hc
      apply hkey
      rw [refKey, Option.map_some', hc]
    have hz : enGlobalToken ++ n ≠ [] := fun hE => hn (List.append_eq_nil.mp hE).2
    refine ⟨reparse_globalref k n hh htk hk he hn hlast, ?_, fun _ => ?_⟩
    · intro hmem
      rw [templatizeLine] at hmem
      rcases List.mem_append.mp hmem with h1 | h2
      · exact hnl (hks h1)
      · rcases List.mem_cons.mp h2 with h3 | h4
        · exact absurd h3 (by decide)
        · rcases List.mem_append.mp h4 with h5 | h6
          · exact absurd h5 (by decide)
          · exact hnl (hns h6)
    · intro hc
      rw [templatizeLine,
        getLast?_append_right _ _ (List.cons_ne_nil _ _),
        show ('=' :: (enGlobalToken ++ n)) = ['='] ++ (enGlobalToken ++ n) from rfl,
        getLast?_append_right _ _ hz, getLast?_append_right _ _ hn] at hc
      exact absurd (hlast '\r' hc) (by decide)

theorem forall2_templatize (ls : List EnvLine)
    (key : ∀ l ∈ ls, parse_line (templatizeLine l) = .ok (l, false)) :
    List.Forall₂ (fun s l => parse_line s = .ok (l, false)) (templatize ls) ls := by
  induction ls with
  | nil => exact List.Forall₂.nil
  | cons l ls ih =>
    exact List.Forall₂.cons (key l (List.mem_cons_self _ _))
      (ih (fun l' hl' => key l' (List.mem_cons_of_mem _ hl')))

/-- Claim C7 as amended: on a text whose parse succeeds with only
Passthrough, LocalRef and GlobalRef lines, and in which no reference key
begins with a hash mark, no Passthrough line other than the final one has
text ending in a carriage return, and the final parsed line is not an
empty Passthrough, parsing the newline-join of the templatized lines
reproduces the parsed lines exactly: references keep key, secret name and
scope, Passthrough lines keep their original text.  A final Passthrough
may end in a carriage return, because str::lines keeps the trailing
carriage return of a line not terminated by a newline. -/
theorem templatize_parse_idem_C7 (text : Str) (ls : List EnvLine)
    (hp : parse text = .ok ls)
    (hplain : ∀ l ∈ ls, isPlain l = false)
    (hkeys : ∀ l ∈ ls, (refKey l).map List.head? ≠ some (some '#'))
    (hcr : ∀ l ∈ ls.dropLast, (rawText l).map List.getLast? ≠ some (some '\r'))
    (hlast : ls.getLast? ≠ some (.Passthrough [])) :
    parse (joinNl (templatize ls)) = .ok ls := by
  have hf2 := parseLines_forall2 hp
  have key : ∀ l ∈ ls, parse_line (templatizeLine l) = .ok (l, false) ∧
      '\n' ∉ templatizeLine l ∧
      ((rawText l).map List.getLast? ≠ some (some '\r') →
        (templatizeLine l).getLast? ≠ some '\r') := by
    intro l hl
    obtain ⟨s, hs, b, hsl⟩ := forall2_exists_left hf2 hl
    exact reparse_line hsl (mem_rustLines_no_nl hs) (hplain l hl) (hkeys l hl)
  have hjoin : rustLines (joinNl (templatize ls)) = templatize ls := by
    apply rustLines_joinNl
    · intro tl htl
      obtain ⟨l, hl, hteq⟩ := List.mem_map.mp htl
      rw [← hteq]
      exact (key l hl).2.1
    · intro tl htl
      rw [show templatize ls = ls.map templatizeLine from rfl,
        dropLast_map] at htl
      obtain ⟨l, hl, hteq⟩ := List.mem_map.mp htl
      rw [← hteq]
      exact (key l ((List.dropLast_sublist _).subset hl)).2.2 (hcr l hl)
    · intro hc
      rw [show templatize ls = ls.map templatizeLine from rfl,
        List.getLast?_map] at hc
      obtain ⟨l0, hl0, he⟩ := Option.map_eq_some'.mp hc
      exact hlast (by rw [hl0, templatizeLine_eq_nil he])
  rw [parse, hjoin]
  exact parseLines_of_pointwise (forall2_templatize ls (fun l hl => (key l hl).1))

theorem templatize_parse_idem_C7_witness :
    parse (joinNl (templatize [.Passthrough "# c".toList,
        .LocalRef "A".toList "s".toList]))
      = .ok [.Passthrough "# c".toList, .LocalRef "A".toList "s".toList] :=
  templatize_parse_idem_C7 "# c\nA=en://s".toList
    [.Passthrough "# c".toList, .LocalRef "A".toList "s".toList]
    (by decide) (by decide) (by decide) (by decide) (by decide)

/-- Claim C7 is refuted at the text consisting of one newline: it parses
to a single empty Passthrough line, but templatize and the newline-join
collapse it to the empty text, whose parse is the empty list. -/
theorem templatize_parse_idem_C7_counterexample :
    parse "\n".toList = .ok [.Passthrough []] ∧
    parse (joinNl (templatize [.Passthrough []])) = .ok [] ∧
    (Except.ok (ε := EnjectError) ([] : List EnvLine)
      ≠ .ok [EnvLine.Passthrough []]) :=
  ⟨by decide, by decide, by decide⟩

theorem classify_ev_en (key U : Str) :
    (classifyValue key (evToken ++ U)).toOption.map Prod.fst
      = (classifyValue key (enToken ++ U)).toOption.map Prod.fst := by
  have h1 : stripPre enGlobalToken (evToken ++ U) = none := rfl
  have h2 : stripPre enToken (evToken ++ U) = none := rfl
  have h3 : stripPre evGlobalToken (evToken ++ U) = stripPre "global/".toList U := by
    rw [show evGlobalToken = evToken ++ "global/".toList from rfl, stripPre_append_both]
  have h4 : stripPre enGlobalToken (enToken ++ U) = stripPre "global/".toList U := by
    rw [show enGlobalToken = enToken ++ "global/".toList from rfl, stripPre_append_both]
  cases hg : stripPre "global/".toList U with
  | some g =>
    simp only [classifyValue, h1, h2, h3, h4, hg]
    by_cases hgn : g = []
    · rw [if_pos hgn, if_pos hgn]
      rfl
    · rw [if_neg hgn, if_neg hgn]
      rfl
  | none =>
    simp only [classifyValue, h1, h2, h3, h4, hg, stripPre_append]
    by_cases hU : U = []
    · rw [if_pos hU, if_pos hU]
      rfl
    · rw [if_neg hU, if_neg hU]
      rfl

/-- Claim C6: for a syntactically valid key K (non-empty, no equals sign,
not beginning with a hash mark), the legacy ev token is a synonym of the
en token: the classification of K=ev://S always agrees with that of
K=en://S (same EnvLine on success, both rejected on failure); for a
well-formed secret name S the local forms parse to the same LocalRef and
the global forms to the same GlobalRef; and K=ev:// is rejected exactly
as K=en:// is. -/
theorem legacy_token_equiv_C6 (K S : Str) (hk : K ≠ []) (hh : K.head? ≠ some '#')
    (he : '=' ∉ K) :
    ((parse_line (K ++ '=' :: (evToken ++ S))).toOption.map Prod.fst
      = (parse_line (K ++ '=' :: (enToken ++ S))).toOption.map Prod.fst) ∧
    (trim K ≠ [] → trimEnd S = S → S ≠ [] → stripPre "global/".toList S = none →
      parse_line (K ++ '=' :: (evToken ++ S)) = .ok (.LocalRef (trim K) S, true) ∧
      parse_line (K ++ '=' :: (enToken ++ S)) = .ok (.LocalRef (trim K) S, false)) ∧
    (trim K ≠ [] → trimEnd S = S → S ≠ [] →
      parse_line (K ++ '=' :: (evGlobalToken ++ S))
        = .ok (.GlobalRef (trim K) S, true) ∧
      parse_line (K ++ '=' :: (enGlobalToken ++ S))
        = .ok (.GlobalRef (trim K) S, false)) ∧
    ((∃ e, parse_line (K ++ '=' :: evToken) = .error e) ∧
      (∃ e, parse_line (K ++ '=' :: enToken) = .error e)) := by
  have hev : trimEnd (evToken ++ S) = evToken ++ trimEnd S := by
    rw [trimEnd_append]
    by_cases hS : trimEnd S = []
    · rw [if_pos hS, hS, List.append_nil]
      rfl
    · rw [if_neg hS]
  have hen : trimEnd (enToken ++ S) = enToken ++ trimEnd S := by
    rw [trimEnd_append]
    by_cases hS : trimEnd S = []
    · rw [if_pos hS, hS, List.append_nil]
      rfl
    · rw [if_neg hS]
  have hevg : trimEnd (evGlobalToken ++ S) = evGlobalToken ++ trimEnd S := by
    rw [trimEnd_append]
    by_cases hS : trimEnd S = []
    · rw [if_pos hS, hS, List.append_nil]
      rfl
    · rw [if_neg hS]
  have heng : trimEnd (enGlobalToken ++ S) = enGlobalToken ++ trimEnd S := by
    rw [trimEnd_append]
    by_cases hS : trimEnd S = []
    · rw [if_pos hS, hS, List.append_nil]
      rfl
    · rw [if_neg hS]
  refine ⟨?_, ?_, ?_, ?_⟩
  · rw [parse_line_keyval K (evToken ++ S) hk hh he,
      parse_line_keyval K (enToken ++ S) hk hh he]
    by_cases htk : trim K = []
    · rw [if_pos htk, if_pos htk]
    · rw [if_neg htk, if_neg htk, hev, hen]
      exact classify_ev_en (trim K) (trimEnd S)
  · intro htk hS hne hng
    constructor
    · rw [parse_line_keyval K (evToken ++ S) hk hh he, if_neg htk, hev, hS]
      exact classify_ev_local (trim K) S hne hng
    · rw [parse_line_keyval K (enToken ++ S) hk hh he, if_neg htk, hen, hS]
      exact classify_en_local (trim K) S hne hng
  · intro htk hS hne
    constructor
    · rw [parse_line_keyval K (evGlobalToken ++ S) hk hh he, if_neg htk, hevg, hS]
      exact classify_ev_global (trim K) S hne
    · rw [parse_line_keyval K (enGlobalToken ++ S) hk hh he, if_neg htk, heng, hS]
      exact classify_en_global (trim K) S hne
  · constructor
    · by_cases htk : trim K = []
      · exact ⟨.Config "Malformed .env line: empty key",
          by rw [parse_line_keyval K evToken hk hh he, if_pos htk]⟩
      · exact ⟨.Config "Malformed ev reference: empty secret name", by
          rw [parse_line_keyval K evToken hk hh he, if_neg htk,
            show trimEnd evToken = evToken from rfl]
          exact classify_ev_token_err (trim K)⟩
    · by_cases htk : trim K = []
      · exact ⟨.Config "Malformed .env line: empty key",
          by rw [parse_line_keyval K enToken hk hh he, if_pos htk]⟩
      · exact ⟨.Config "Malformed en reference: empty secret name", by
          rw [parse_line_keyval K enToken hk hh he, if_neg htk,
            show trimEnd enToken = enToken from rfl]
          exact classify_en_token_err (trim K)⟩

theorem legacy_token_equiv_C6_witness :
    ((parse_line ("K".toList ++ '=' :: (evToken ++ "sn".toList))).toOption.map Prod.fst
      = (parse_line ("K".toList ++ '=' :: (enToken ++ "sn".toList))).toOption.map
          Prod.fst) ∧
    (parse_line ("K".toList ++ '=' :: (evToken ++ "sn".toList))
        = .ok (.LocalRef (trim "K".toList) "sn".toList, true) ∧
      parse_line ("K".toList ++ '=' :: (enToken ++ "sn".toList))
        = .ok (.LocalRef (trim "K".toList) "sn".toList, false)) ∧
    (∃ e, parse_line ("K".toList ++ '=' :: evToken) = .error e) :=
  ⟨(legacy_token_equiv_C6 "K".toList "sn".toList (by decide) (by decide) (by decide)).1,
   (legacy_token_equiv_C6 "K".toList "sn".toList (by decide) (by decide)
      (by decide)).2.1 (by decide) (by decide) (by decide) (by decide),
   (legacy_token_equiv_C6 "K".toList "sn".toList (by decide) (by decide)
      (by decide)).2.2.2.1⟩

theorem classifyValue_error_iff (key value : Str) :
    (∃ e, classifyValue key value = .error e) ↔
      value ∈ [enGlobalToken, enToken, evGlobalToken, evToken] := by
  constructor
  · rintro ⟨e, he⟩
    rw [classifyValue] at he
    split at he
    · rename_i n h1
      split at he
      · rename_i hn
        subst hn
        have hv := stripPre_eq_some.mp h1
        rw [List.append_nil] at hv
        simp [hv]
      · cases he
    · rename_i h1
      split at he
      · rename_i n h2
        split at he
        · rename_i hn
          subst hn
          have hv := stripPre_eq_some.mp h2
          rw [List.append_nil] at hv
          simp [hv]
        · cases he
      · rename_i h2
        split at he
        · rename_i n h3
          split at he
          · rename_i hn
            subst hn
            have hv := stripPre_eq_some.mp h3
            rw [List.append_nil] at hv
            simp [hv]
          · cases he
        · rename_i h3
          split at he
          · rename_i n h4
            split at he
            · rename_i hn
              subst hn
              have hv := stripPre_eq_some.mp h4
              rw [List.append_nil] at hv
              simp [hv]
            · cases he
          · cases he
  · intro hv
    simp only [List.mem_cons, List.mem_singleton, List.not_mem_nil, or_false] at hv
    rcases hv with h | h | h | h
    · exact ⟨_, by rw [h]; exact classify_en_global_token_err key⟩
    · exact ⟨_, by rw [h]; exact classify_en_token_err key⟩
    · exact ⟨_, by rw [h]; exact classify_ev_global_token_err key⟩
    · exact ⟨_, by rw [h]; exact classify_ev_token_err key⟩

theorem parse_line_error_iff (l : Str) :
    (∃ e, parse_line l = .error e) ↔
      (trimEnd l ≠ [] ∧ (trimEnd l).head? ≠ some '#' ∧
        ('=' ∉ trimEnd l ∨ lineKeyOf l = [] ∨
          lineValueOf l ∈ [enGlobalToken, enToken, evGlobalToken, evToken])) := by
  by_cases hc : trimEnd l = [] ∨ (trimEnd l).head? = some '#'
  · rw [parse_line, if_pos hc]
    constructor
    · rintro ⟨e, he⟩
      cases he
    · rintro ⟨h1, h2, _⟩
      rcases hc with hc | hc
      · exact absurd hc h1
      · exact absurd hc h2
  · have hc' := not_or.mp hc
    rw [parse_line, if_neg hc]
    cases hfc : findChar '=' (trimEnd l) with
    | none =>
      have hmem := (findChar_eq_none _ _).mp hfc
      simp only [hfc]
      constructor
      · intro _
        exact ⟨hc'.1, hc'.2, Or.inl hmem⟩
      · intro _
        exact ⟨_, rfl⟩
    | some i =>
      obtain ⟨htw, hdw, _⟩ := findChar_take_drop '=' (trimEnd l) i hfc
      have hmem : '=' ∈ trimEnd l := by
        by_contra hm
        rw [(findChar_eq_none _ _).mpr hm] at hfc
        cases hfc
      have hkeyeq : lineKeyOf l = trim ((trimEnd l).take i) := by
        rw [lineKeyOf, htw]
      have hvaleq : lineValueOf l = (trimEnd l).drop (i + 1) := by
        rw [lineValueOf, hdw]
      simp only [hfc]
      by_cases hkey : trim ((trimEnd l).take i) = []
      · rw [if_pos hkey]
        constructor
        · intro _
          refine ⟨hc'.1, hc'.2, Or.inr (Or.inl ?_)⟩
          rw [hkeyeq]
          exact hkey
        · intro _
          exact ⟨_, rfl⟩
      · rw [if_neg hkey]
        rw [classifyValue_error_iff]
        constructor
        · intro hval
          refine ⟨hc'.1, hc'.2, Or.inr (Or.inr ?_)⟩
          rw [hvaleq]
          exact hval
        · rintro ⟨_, _, h3⟩
          rcases h3 with h3 | h3 | h3
          · exact absurd hmem h3
          · rw [hkeyeq] at h3
            exact absurd h3 hkey
          · rw [hvaleq] at h3
            exact h3

/-- Claim C5: parsing is total, order-preserving, and all-or-nothing.
The parse of a text succeeds exactly when every one of its lines parses,
a successful parse pairs the lines with their parsed forms in order with
no partial sequence otherwise, and a single line is malformed exactly when
it is a non-blank non-comment line with no equals sign, an empty key after
trimming, or an empty secret name after a recognized reference token. -/
theorem parse_total_error_cases_C5 (content : Str) :
    ((∃ ls, parse content = .ok ls) ↔
      ∀ l ∈ rustLines content, ∃ r, parse_line l = .ok r) ∧
    (∀ ls, parse content = .ok ls →
      List.Forall₂ (fun s l => ∃ b, parse_line s = .ok (l, b))
        (rustLines content) ls) ∧
    (∀ l : Str, (∃ e, parse_line l = .error e) ↔
      (trimEnd l ≠ [] ∧ (trimEnd l).head? ≠ some '#' ∧
        ('=' ∉ trimEnd l ∨ lineKeyOf l = [] ∨
          lineValueOf l ∈ [enGlobalToken, enToken, evGlobalToken, evToken]))) :=
  ⟨parseLines_ok_iff (rustLines content), fun _ h => parseLines_forall2 h,
   fun l => parse_line_error_iff l⟩

theorem parse_total_error_cases_C5_witness :
    List.Forall₂ (fun s l => ∃ b, parse_line s = .ok (l, b))
        (rustLines "PORT=3000\nDB=en://db".toList)
        [.Plain "PORT".toList "3000".toList, .LocalRef "DB".toList "db".toList] ∧
    (∃ e, parse_line "NOEQUALS".toList = .error e) :=
  ⟨(parse_total_error_cases_C5 "PORT=3000\nDB=en://db".toList).2.1
      [.Plain "PORT".toList "3000".toList, .LocalRef "DB".toList "db".toList]
      (by decide),
   ((parse_total_error_cases_C5 "".toList).2.2 "NOEQUALS".toList).mpr (by decide)⟩

/-- Claim C4 as amended: the classification of a line.  A line that is
empty or starts with a hash mark after trailing-whitespace trimming is a
Passthrough carrying the original text; otherwise the key is the trimmed
text before the first equals sign and the value the verbatim text after
it, and the value is classified by its placeholder token: the en global
form first, then the en local form, then — added by the amendment — the
legacy ev global and ev local forms, and any value starting with none of
the recognized tokens is Plain. -/
theorem parser_classification_C4 (line : Str) :
    ((trimEnd line = [] ∨ (trimEnd line).head? = some '#') →
      parse_line line = .ok (.Passthrough line, false)) ∧
    (¬(trimEnd line = [] ∨ (trimEnd line).head? = some '#') →
      '=' ∈ trimEnd line → lineKeyOf line ≠ [] →
      ((enGlobalToken <+: lineValueOf line →
          (lineValueOf line).drop enGlobalToken.length ≠ [] →
          parse_line line
            = .ok (.GlobalRef (lineKeyOf line)
                ((lineValueOf line).drop enGlobalToken.length), false)) ∧
        (¬ enGlobalToken <+: lineValueOf line → enToken <+: lineValueOf line →
          (lineValueOf line).drop enToken.length ≠ [] →
          parse_line line
            = .ok (.LocalRef (lineKeyOf line)
                ((lineValueOf line).drop enToken.length), false)) ∧
        (¬ enGlobalToken <+: lineValueOf line → ¬ enToken <+: lineValueOf line →
          evGlobalToken <+: lineValueOf line →
          (lineValueOf line).drop evGlobalToken.length ≠ [] →
          parse_line line
            = .ok (.GlobalRef (lineKeyOf line)
                ((lineValueOf line).drop evGlobalToken.length), true)) ∧
        (¬ enGlobalToken <+: lineValueOf line → ¬ enToken <+: lineValueOf line →
          ¬ evGlobalToken <+: lineValueOf line → evToken <+: lineValueOf line →
          (lineValueOf line).drop evToken.length ≠ [] →
          parse_line line
            = .ok (.LocalRef (lineKeyOf line)
                ((lineValueOf line).drop evToken.length), true)) ∧
        (¬ enGlobalToken <+: lineValueOf line → ¬ enToken <+: lineValueOf line →
          ¬ evGlobalToken <+: lineValueOf line → ¬ evToken <+: lineValueOf line →
          parse_line line = .ok (.Plain (lineKeyOf line) (lineValueOf line),
            false)))) := by
  constructor
  · intro hc
    rw [parse_line, if_pos hc]
  · intro hc hmem hkey
    obtain ⟨i, hfc⟩ := findChar_of_mem '=' (trimEnd line) hmem
    obtain ⟨htw, hdw, _⟩ := findChar_take_drop '=' (trimEnd line) i hfc
    have hkeyeq : lineKeyOf line = trim ((trimEnd line).take i) := by
      rw [lineKeyOf, htw]
    have hvaleq : lineValueOf line = (trimEnd line).drop (i + 1) := by
      rw [lineValueOf, hdw]
    have hbase : parse_line line
        = classifyValue (lineKeyOf line) (lineValueOf line) := by
      rw [parse_line, if_neg hc]
      simp only [hfc]
      rw [if_neg (by rw [← hkeyeq]; exact hkey), hkeyeq, hvaleq]
    refine ⟨?_, ?_, ?_, ?_, ?_⟩
    · intro hpre hne
      rw [hbase]
      simp only [classifyValue, stripPre_isPre _ _ hpre, if_neg hne]
    · intro hn1 hpre hne
      rw [hbase]
      simp only [classifyValue, (stripPre_none_iff _ _).mpr hn1,
        stripPre_isPre _ _ hpre, if_neg hne]
    · intro hn1 hn2 hpre hne
      rw [hbase]
      simp only [classifyValue, (stripPre_none_iff _ _).mpr hn1,
        (stripPre_none_iff _ _).mpr hn2, stripPre_isPre _ _ hpre, if_neg hne]
    · intro hn1 hn2 hn3 hpre hne
      rw [hbase]
      simp only [classifyValue, (stripPre_none_iff _ _).mpr hn1,
        (stripPre_none_iff _ _).mpr hn2, (stripPre_none_iff _ _).mpr hn3,
        stripPre_isPre _ _ hpre, if_neg hne]
    · intro hn1 hn2 hn3 hn4
      rw [hbase]
      simp only [classifyValue, (stripPre_none_iff _ _).mpr hn1,
        (stripPre_none_iff _ _).mpr hn2, (stripPre_none_iff _ _).mpr hn3,
        (stripPre_none_iff _ _).mpr hn4]

theorem parser_classification_C4_witness :
    parse_line "K=en://global/s".toList
      = .ok (.GlobalRef "K".toList "s".toList, false) :=
  ((parser_classification_C4 "K=en://global/s".toList).2
    (by decide) (by decide) (by decide)).1 (by decide) (by decide)

end Enveil
